import Mathlib

/-!
# glaceon: the WireGuard UAPI translator and the startup sequence

A shallow embedding of `cmd/glaceon/main.go`.

* Go strings and byte slices are lists of bytes (`Nat` values below 256).
* A Go call either returns or panics; `Result` keeps the two apart, together
  with the returned `error`.
* The standard-library routines the program calls (`encoding/base64`,
  `encoding/hex`, `strings.Split`, `net.SplitHostPort`, `fmt.Fprintf`) are
  embedded from their Go sources, for `base64.StdEncoding` (padding `=`,
  not strict) on a 64-bit platform.
* The resolver (`net.LookupHost`) and the other external collaborators of
  `main` are parameters.
-/

namespace Glaceon

/-- A Go string or byte slice. -/
abbrev Bytes := List Nat

/-- The bytes of an ASCII string literal. -/
def B (s : String) : Bytes := s.toList.map Char.toNat

/-- Go `error` values the program can return. -/
inductive GoError
  | CorruptInputError (pos : Int)
  | AddrError (err : String) (addr : Bytes)
  | DNSError (msg : Bytes)
  deriving DecidableEq, Repr

/-- Outcome of a Go call that returns `(value, error)` and may panic.
`diverge` is the outcome of a loop model that ran out of fuel. -/
inductive Result (α : Type)
  | ok (a : α)
  | error (e : GoError)
  | panic
  | diverge
  deriving DecidableEq, Repr

deriving instance DecidableEq for Except

/-! ## encoding/base64 -/

/-- The alphabet of `base64.StdEncoding`. -/
def encodeStd : Bytes :=
  B "ABCDEFGHIJKLMNOPQRSTUVWXYZabcdefghijklmnopqrstuvwxyz0123456789+/"

/-- The table `enc.decodeMap`: the index of `c` in the alphabet, `0xff` for
every other byte. -/
def decodeMap (c : Nat) : Nat :=
  let i := encodeStd.indexOf c
  if i < 64 then i else 0xff

/-- The method `Encoding.DecodedLen` for a padded encoding. -/
def DecodedLen (n : Nat) : Nat := n / 4 * 3

/-- The buffer, the write offset `n` and the read offset `si` of `Decode`. -/
structure DecState where
  dst : Bytes
  n : Nat
  si : Nat
  deriving DecidableEq, Repr

/-- How the symbol loop of `decodeQuantum` ends: `ret` is one of its early
`return si, 0, err` statements, `brk` leaves the loop with the quantum read so
far (`dlen` symbols) and the pending error. -/
inductive Scan
  | ret (si : Nat) (err : Option GoError)
  | brk (si : Nat) (dbuf : List Nat) (dlen : Nat) (err : Option GoError)
  deriving DecidableEq, Repr

/-- The loop `for si < len(src) && (src[si] == '\n' || src[si] == '\r')`:
the number of line breaks at the head of `rest`. -/
def skipNewlines : Bytes → Nat
  | [] => 0
  | c :: tl => if c = 10 ∨ c = 13 then skipNewlines tl + 1 else 0

/-- The tail of the padding case of `decodeQuantum`: skip line breaks, flag
trailing garbage, leave the loop with `dlen = j`. -/
def finishPadding (rest : Bytes) (si j : Nat) (dbuf : List Nat) : Scan :=
  let k := skipNewlines rest
  let si := si + k
  if (rest.drop k).length ≠ 0 then
    .brk si dbuf j (some (.CorruptInputError si))
  else
    .brk si dbuf j none

/-- The symbol loop `for j := 0; j < len(dbuf); j++` of `decodeQuantum`, with
`rest = src[si:]`. -/
def quantumLoop (srcLen : Nat) : Bytes → Nat → Nat → List Nat → Scan
  | [], si, j, dbuf =>
    if 4 ≤ j then .brk si dbuf 4 none
    else if j = 0 then .ret si none
    else .ret si (some (.CorruptInputError ((si : Int) - (j : Int))))
  | c :: tl, si, j, dbuf =>
    if 4 ≤ j then .brk si dbuf 4 none
    else
      let si := si + 1
      let out := decodeMap c
      if out ≠ 0xff then quantumLoop srcLen tl si (j + 1) (dbuf.set j out)
      else if c = 10 ∨ c = 13 then quantumLoop srcLen tl si j dbuf
      else if c ≠ 61 then .ret si (some (.CorruptInputError ((si : Int) - 1)))
      else if j = 0 ∨ j = 1 then
        .ret si (some (.CorruptInputError ((si : Int) - 1)))
      else if j = 2 then
        let k := skipNewlines tl
        let si := si + k
        match tl.drop k with
        | [] => .ret si (some (.CorruptInputError srcLen))
        | c2 :: tl2 =>
          if c2 ≠ 61 then .ret si (some (.CorruptInputError ((si : Int) - 1)))
          else finishPadding tl2 (si + 1) j dbuf
      else finishPadding tl si j dbuf

/-- The assignment `dst[i] = v` of a byte slice: a panic when `i` is out of
range. -/
def store (dst : Bytes) (i v : Nat) : Option Bytes :=
  if i < dst.length then some (dst.set i v) else none

/-- The three bytes of a quantum: `val := dbuf[0]<<18 | dbuf[1]<<12 |
dbuf[2]<<6 | dbuf[3]`, then `byte(val>>16), byte(val>>8), byte(val>>0)`. -/
def quantumBytes (dbuf : List Nat) : Nat × Nat × Nat :=
  let val := dbuf.getD 0 0 <<< 18 ||| dbuf.getD 1 0 <<< 12 |||
    dbuf.getD 2 0 <<< 6 ||| dbuf.getD 3 0
  ((val >>> 16) % 256, (val >>> 8) % 256, (val >>> 0) % 256)

/-- The `switch dlen` at the end of `decodeQuantum`, writing into `dst[n:]`:
`dst[2]` first, then `dst[1]`, then `dst[0]`. `none` is an index panic. -/
def writeQuantum (dst : Bytes) (n : Nat) (dbuf : List Nat) (dlen : Nat) : Option Bytes :=
  let b := quantumBytes dbuf
  match dlen with
  | 4 => (store dst (n + 2) b.2.2).bind fun d2 =>
         (store d2 (n + 1) b.2.1).bind fun d1 => store d1 n b.1
  | 3 => (store dst (n + 1) b.2.1).bind fun d1 => store d1 n b.1
  | 2 => store dst n b.1
  | _ => some dst

/-- The call `si, ninc, err = enc.decodeQuantum(dst[n:], src, si)` followed by
`n += ninc`. The outcome is a panic, or the new state and `err`. -/
def decodeQuantum (src : Bytes) (st : DecState) : Option (DecState × Option GoError) :=
  if st.dst.length < st.n then none
  else
    match quantumLoop src.length (src.drop st.si) st.si 0 [0, 0, 0, 0] with
    | .ret si err => some (⟨st.dst, st.n, si⟩, err)
    | .brk si dbuf dlen err =>
      (writeQuantum st.dst st.n dbuf dlen).map fun d => (⟨d, st.n + (dlen - 1), si⟩, err)

/-- The function `assemble64`: `none` when one of the eight digits is `0xff`. -/
def assemble64 (n1 n2 n3 n4 n5 n6 n7 n8 : Nat) : Option Nat :=
  if n1 ||| n2 ||| n3 ||| n4 ||| n5 ||| n6 ||| n7 ||| n8 = 0xff then none
  else some ((n1 <<< 58 ||| n2 <<< 52 ||| n3 <<< 46 ||| n4 <<< 40 |||
    n5 <<< 34 ||| n6 <<< 28 ||| n7 <<< 22 ||| n8 <<< 16) % 2 ^ 64)

/-- The function `assemble32`: `none` when one of the four digits is `0xff`. -/
def assemble32 (n1 n2 n3 n4 : Nat) : Option Nat :=
  if n1 ||| n2 ||| n3 ||| n4 = 0xff then none
  else some ((n1 <<< 26 ||| n2 <<< 20 ||| n3 <<< 14 ||| n4 <<< 8) % 2 ^ 32)

/-- Overwrite `dst[n:n+len(bs)]` with `bs` (the caller has checked the room). -/
def putBytes (dst : Bytes) (n : Nat) (bs : Bytes) : Bytes :=
  dst.take n ++ bs ++ dst.drop (n + bs.length)

/-- The call `binary.BigEndian.PutUint64(dst[n:], v)`. -/
def putUint64 (dst : Bytes) (n v : Nat) : Bytes :=
  putBytes dst n [(v >>> 56) % 256, (v >>> 48) % 256, (v >>> 40) % 256, (v >>> 32) % 256,
    (v >>> 24) % 256, (v >>> 16) % 256, (v >>> 8) % 256, v % 256]

/-- The call `binary.BigEndian.PutUint32(dst[n:], v)`. -/
def putUint32 (dst : Bytes) (n v : Nat) : Bytes :=
  putBytes dst n [(v >>> 24) % 256, (v >>> 16) % 256, (v >>> 8) % 256, v % 256]

/-- The constant `strconv.IntSize` of the platform. -/
def IntSize : Nat := 64

/-- What a loop of `Decode` hands on: a panic, the `return n, err` inside the
loop, the state at loop exit, or no fuel left. -/
inductive Loop
  | panic
  | fail (st : DecState) (e : GoError)
  | next (st : DecState)
  | diverge
  deriving DecidableEq, Repr

/-- One slow step shared by the three loops of `Decode`. -/
def slowStep (src : Bytes) (st : DecState) (k : DecState → Loop) : Loop :=
  match decodeQuantum src st with
  | none => .panic
  | some (st1, some e) => .fail st1 e
  | some (st1, none) => k st1

/-- The first loop of `Decode`: eight symbols at a time. -/
def loop64 (src : Bytes) : Nat → DecState → Loop
  | 0, _ => .diverge
  | fuel + 1, st =>
    if 64 ≤ IntSize ∧ 8 ≤ src.length - st.si ∧ 8 ≤ st.dst.length - st.n then
      match assemble64 (decodeMap (src.getD st.si 0)) (decodeMap (src.getD (st.si + 1) 0))
          (decodeMap (src.getD (st.si + 2) 0)) (decodeMap (src.getD (st.si + 3) 0))
          (decodeMap (src.getD (st.si + 4) 0)) (decodeMap (src.getD (st.si + 5) 0))
          (decodeMap (src.getD (st.si + 6) 0)) (decodeMap (src.getD (st.si + 7) 0)) with
      | some dn => loop64 src fuel ⟨putUint64 st.dst st.n dn, st.n + 6, st.si + 8⟩
      | none => slowStep src st (loop64 src fuel)
    else .next st

/-- The second loop of `Decode`: four symbols at a time. -/
def loop32 (src : Bytes) : Nat → DecState → Loop
  | 0, _ => .diverge
  | fuel + 1, st =>
    if 4 ≤ src.length - st.si ∧ 4 ≤ st.dst.length - st.n then
      match assemble32 (decodeMap (src.getD st.si 0)) (decodeMap (src.getD (st.si + 1) 0))
          (decodeMap (src.getD (st.si + 2) 0)) (decodeMap (src.getD (st.si + 3) 0)) with
      | some dn => loop32 src fuel ⟨putUint32 st.dst st.n dn, st.n + 3, st.si + 4⟩
      | none => slowStep src st (loop32 src fuel)
    else .next st

/-- The last loop of `Decode`: `for si < len(src)`, one quantum at a time. -/
def loopTail (src : Bytes) : Nat → DecState → Loop
  | 0, _ => .diverge
  | fuel + 1, st =>
    if st.si < src.length then slowStep src st (loopTail src fuel)
    else .next st

/-- The method `base64.StdEncoding.Decode(dst, src)`: the buffer after the
call, with the returned `n` and `err`. Every loop gets `len(src) + 1` units of
fuel, one more than the symbols it can consume. -/
def Decode (dst src : Bytes) : Loop :=
  if src.length = 0 then .next ⟨dst, 0, 0⟩
  else
    match loop64 src (src.length + 1) ⟨dst, 0, 0⟩ with
    | .next st1 =>
      match loop32 src (src.length + 1) st1 with
      | .next st2 => loopTail src (src.length + 1) st2
      | r => r
    | r => r

/-! ## encoding/hex -/

/-- The constant `hextable`. -/
def hextable : Bytes := B "0123456789abcdef"

/-- The function `hex.EncodeToString`: `hextable[v>>4]`, `hextable[v&0x0f]`
for every byte `v`. -/
def EncodeToString : Bytes → Bytes
  | [] => []
  | v :: tl => hextable.getD (v >>> 4) 0 :: hextable.getD (v &&& 0x0f) 0 :: EncodeToString tl

/-! ## main.go -/

/-- The function `key2hex`. `make` panics on the negative length that
`DecodedLen(len(data))-1` takes for inputs shorter than four bytes. -/
def key2hex (data : Bytes) : Result Bytes :=
  let len : Int := (DecodedLen data.length : Int) - 1
  if len < 0 then .panic
  else
    match Decode (List.replicate len.toNat 0) data with
    | .panic => .panic
    | .diverge => .diverge
    | .fail _ e => .error e
    | .next st => .ok (EncodeToString st.dst)

/-! ## strings, fmt, net -/

/-- The function `strings.Split(s, sep)` for a one-byte separator: the pieces
of `s` between the occurrences of `sep`, one more than there are occurrences. -/
def Split (sep : Nat) : Bytes → List Bytes
  | [] => [[]]
  | c :: tl =>
    if c = sep then [] :: Split sep tl
    else
      match Split sep tl with
      | [] => [[c]]
      | p :: ps => (c :: p) :: ps

/-- The function `strings.Join(elems, sep)`. -/
def Join (sep : Bytes) : List Bytes → Bytes
  | [] => []
  | [p] => p
  | p :: q :: ps => p ++ sep ++ Join sep (q :: ps)

/-- The verb `%d` of `fmt` for an `int`: a minus sign for a negative value,
then the decimal digits. -/
def formatInt (v : Int) : Bytes :=
  if v < 0 then 45 :: (Nat.toDigits 10 v.natAbs).map Char.toNat
  else (Nat.toDigits 10 v.natAbs).map Char.toNat

/-- The function `bytealg.IndexByteString`: `-1` when `c` is absent. -/
def IndexByte (s : Bytes) (c : Nat) : Int :=
  if s.indexOf c < s.length then (s.indexOf c : Int) else -1

/-- The function `bytealg.LastIndexByteString`: `-1` when `c` is absent. -/
def LastIndexByte (s : Bytes) (c : Nat) : Int :=
  if s.reverse.indexOf c < s.length then (s.length : Int) - 1 - (s.reverse.indexOf c : Int)
  else -1

/-- The slice expression `s[lo:hi]` (for `lo ≤ hi ≤ len(s)`). -/
def slice (s : Bytes) (lo hi : Nat) : Bytes := (s.take hi).drop lo

/-- The closure `addrErr` of `net.SplitHostPort`. -/
def addrErr (addr : Bytes) (why : String) : Except GoError (Bytes × Bytes) :=
  .error (.AddrError why addr)

/-- The checks of `net.SplitHostPort` after the host is known: no `[` from
offset `j` on, no `]` from offset `k` on; the port starts after the last
colon, at offset `i + 1`. -/
def splitTail (hostport host : Bytes) (i j k : Nat) : Except GoError (Bytes × Bytes) :=
  if 0 ≤ IndexByte (hostport.drop j) 91 then addrErr hostport "unexpected '[' in address"
  else if 0 ≤ IndexByte (hostport.drop k) 93 then addrErr hostport "unexpected ']' in address"
  else .ok (host, hostport.drop (i + 1))

/-- The function `net.SplitHostPort`. -/
def SplitHostPort (hostport : Bytes) : Except GoError (Bytes × Bytes) :=
  let i := LastIndexByte hostport 58
  if i < 0 then addrErr hostport "missing port in address"
  else if hostport.getD 0 0 = 91 then
    let e := IndexByte hostport 93
    if e < 0 then addrErr hostport "missing ']' in address"
    else if e + 1 = hostport.length then addrErr hostport "missing port in address"
    else if e + 1 = i then
      splitTail hostport (slice hostport 1 e.toNat) i.toNat 1 (e.toNat + 1)
    else if hostport.getD (e.toNat + 1) 0 = 58 then
      addrErr hostport "too many colons in address"
    else addrErr hostport "missing port in address"
  else
    let host := slice hostport 0 i.toNat
    if 0 ≤ IndexByte host 58 then addrErr hostport "too many colons in address"
    else splitTail hostport host i.toNat 0 0

/-- The type `WireGuardInterface`. -/
structure WireGuardInterface where
  PrivateKey : Bytes
  Address : Bytes
  DNS : Bytes
  deriving DecidableEq, Repr

/-- The type `WireGuardPeer`. -/
structure WireGuardPeer where
  PublicKey : Bytes
  AllowedIPs : Bytes
  Endpoint : Bytes
  PersistentKeepalive : Int
  deriving DecidableEq, Repr

/-- The type `WireGuardConfig`. -/
structure WireGuardConfig where
  Interface : WireGuardInterface
  Peer : WireGuardPeer
  deriving DecidableEq, Repr

/-- The resolver `net.LookupHost`, an external collaborator. -/
abbrev Resolver := Bytes → Except GoError (List Bytes)

/-- The call `fmt.Fprintf(out, "endpoint=%s:%s\n", host, endpointPort)`. -/
def endpointLine (endpointPort host : Bytes) : Bytes :=
  B "endpoint=" ++ host ++ B ":" ++ endpointPort ++ B "\n"

/-- The call `fmt.Fprintf(out, "allowed_ip=%s\n", aip)`. -/
def allowedLine (aip : Bytes) : Bytes := B "allowed_ip=" ++ aip ++ B "\n"

/-- The method `WireGuardConfig.UAPI`, for a sink that accepts every write
(the `bytes.Buffer` of `main`): the bytes written to `out`, and how the call
ends. -/
def UAPI (LookupHost : Resolver) (wc : WireGuardConfig) : Bytes × Result Unit :=
  match key2hex wc.Interface.PrivateKey with
  | .error e => ([], .error e)
  | .panic => ([], .panic)
  | .diverge => ([], .diverge)
  | .ok pkey =>
    let out := B "private_key=" ++ pkey ++ B "\n"
    let out := out ++ (B "listen_port=0" ++ B "\n")
    let out := out ++ (B "replace_peers=true" ++ B "\n")
    match key2hex wc.Peer.PublicKey with
    | .error e => (out, .error e)
    | .panic => (out, .panic)
    | .diverge => (out, .diverge)
    | .ok pkey =>
      let out := out ++ (B "public_key=" ++ pkey ++ B "\n")
      match SplitHostPort wc.Peer.Endpoint with
      | .error e => (out, .error e)
      | .ok (endpointHost, endpointPort) =>
        match LookupHost endpointHost with
        | .error e => (out, .error e)
        | .ok hosts =>
          let out := hosts.foldl (fun out host => out ++ endpointLine endpointPort host) out
          let out := (Split 44 wc.Peer.AllowedIPs).foldl (fun out aip => out ++ allowedLine aip) out
          let out := out ++
            (B "persistent_keepalive_interval=" ++ formatInt wc.Peer.PersistentKeepalive ++ B "\n")
          (out, .ok ())

/-- The struct `config`; of the URL `ProxyTo`, taken to be a non-nil pointer,
the model keeps the text and the field `Scheme`. -/
structure config where
  ProxyTo : Bytes
  ProxyToScheme : Bytes
  WireguardConfigFname : Bytes
  Listen : Bytes
  deriving DecidableEq, Repr

/-- The external collaborators of `main`, each given by the outcome of its
call: `flag.Parse` (false when it ends the process), `env.Parse`,
`gcfg.FatalOnly(gcfg.ReadFileInto(..))`, `netip.ParsePrefix` (the parsed
address), `netip.ParseAddr`, `netstack.CreateNetTUN`, `net.LookupHost`,
`dev.IpcSetOperation` and `dev.Up` (true on success). -/
structure World where
  flagParse : Bool
  envParse : Option config
  ReadFileInto : Bytes → Option WireGuardConfig
  ParsePrefix : Bytes → Option Bytes
  ParseAddr : Bytes → Option Bytes
  CreateNetTUN : Bytes → Bytes → Nat → Bool
  LookupHost : Resolver
  IpcSetOperation : Bytes → Bool
  Up : Bool

/-- The steps `main` attempts, in the state it builds up. -/
inductive Step
  | envParse
  | readConfig (fname : Bytes)
  | parsePrefix (address : Bytes)
  | createNetTUN (addr dns : Bytes) (mtu : Nat)
  | writeUAPI
  | newDevice
  | ipcSetOperation (conf : Bytes)
  | deviceUp
  | listenAndServe (listen : Bytes)
  deriving DecidableEq, Repr

/-- How `main` ends: `log.Fatalf` (with its format string), a panic, the exit
inside `flag.Parse`, or the blocking call `http.ListenAndServe`. -/
inductive Exit
  | fatal (msg : String)
  | panic
  | diverge
  | flagExit
  | serving
  deriving DecidableEq, Repr

/-- The steps of the tunnel device lifecycle: creation of the virtual network
stack, creation of the device, application of the control document, bring-up. -/
def Step.isLifecycle : Step → Bool
  | .createNetTUN _ _ _ => true
  | .newDevice => true
  | .ipcSetOperation _ => true
  | .deviceUp => true
  | _ => false

/-- The function `main`: the steps attempted, in order, and how the process
ends. -/
def main (w : World) : List Step × Exit :=
  if w.flagParse = false then ([], .flagExit)
  else
    let s := [Step.envParse]
    match w.envParse with
    | none => (s, .fatal "failed to read envvars: %v")
    | some cfg =>
      let s := s ++ [.readConfig cfg.WireguardConfigFname]
      match w.ReadFileInto cfg.WireguardConfigFname with
      | none => (s, .fatal "failed to read wireguard config: %v")
      | some wgc =>
        let s := s ++ [.parsePrefix wgc.Interface.Address]
        match w.ParsePrefix wgc.Interface.Address with
        | none => (s, .fatal "failed to parse address: %v")
        | some addr =>
          match w.ParseAddr wgc.Interface.DNS with
          | none => (s, .panic)
          | some dns =>
            let s := s ++ [.createNetTUN addr dns 1280]
            if w.CreateNetTUN addr dns 1280 = false then (s, .fatal "failed to create tun: %v")
            else
              let s := s ++ [.writeUAPI]
              match UAPI w.LookupHost wgc with
              | (_, .error _) => (s, .fatal "failed to write UAPI: %v")
              | (_, .panic) => (s, .panic)
              | (_, .diverge) => (s, .diverge)
              | (confBuf, .ok _) =>
                let s := s ++ [.newDevice, .ipcSetOperation confBuf]
                if w.IpcSetOperation confBuf = false then (s, .fatal "failed to set config: %v")
                else
                  let s := s ++ [.deviceUp]
                  if w.Up = false then (s, .fatal "failed to bring up device: %v")
                  else if cfg.ProxyToScheme = B "http" then
                    (s ++ [.listenAndServe cfg.Listen], .serving)
                  else (s, .fatal "unsupported scheme: %s")

/-! ## Notions the specification uses -/

/-- The symbol of a 6-bit value in the alphabet of RFC 4648. -/
def encodeChar (v : Nat) : Nat := encodeStd.getD v 0

/-- The standard padded base64 encoding (RFC 4648, section 4) of a byte
sequence: three bytes give four symbols, a last group of two or one bytes is
padded with `=`. -/
def stdEncode : Bytes → Bytes
  | a :: b :: c :: rest =>
    encodeChar (a / 4) :: encodeChar (a % 4 * 16 + b / 16) ::
      encodeChar (b % 16 * 4 + c / 64) :: encodeChar (c % 64) :: stdEncode rest
  | [a, b] => [encodeChar (a / 4), encodeChar (a % 4 * 16 + b / 16), encodeChar (b % 16 * 4), 61]
  | [a] => [encodeChar (a / 4), encodeChar (a % 4 * 16), 61, 61]
  | [] => []

/-- Every element is a byte. -/
def IsBytes (bs : Bytes) : Prop := ∀ b ∈ bs, b < 256

/-- The value of a lowercase hexadecimal digit (16 for any other byte). -/
def hexVal (c : Nat) : Nat := hextable.indexOf c

/-- The lines of a document: its pieces between line feeds. -/
def lines (doc : Bytes) : List Bytes := Split 10 doc

/-- The lines of a document that start with `pre`. -/
def linesWith (pre doc : Bytes) : List Bytes := (lines doc).filter fun l => pre.isPrefixOf l

/-- The document made of the given lines, each terminated by a line feed. -/
def unlines (ls : List Bytes) : Bytes := (ls.map fun l => l ++ B "\n").flatten

/-- The control document of a successful call, from the hexadecimal keys, the
port, the resolved addresses, the allowed-IP string and the keepalive. -/
def controlDocument (priv pub port : Bytes) (addrs : List Bytes) (allowed : Bytes)
    (keepalive : Int) : Bytes :=
  unlines ([B "private_key=" ++ priv, B "listen_port=0", B "replace_peers=true",
      B "public_key=" ++ pub] ++
    addrs.map (fun a => B "endpoint=" ++ a ++ B ":" ++ port) ++
    (Split 44 allowed).map (fun e => B "allowed_ip=" ++ e) ++
    [B "persistent_keepalive_interval=" ++ formatInt keepalive])

/-- The read offset a symbol loop ends with. -/
def Scan.pos : Scan → Nat
  | .ret si _ => si
  | .brk si _ _ _ => si

/-- Line feed or carriage return. -/
def isLineBreak (c : Nat) : Bool := c = 10 ∨ c = 13

/-- A symbol of the alphabet. -/
def isAlphabet (c : Nat) : Bool := encodeStd.contains c

/-- The text without its line breaks. -/
def stripLineBreaks (s : Bytes) : Bytes := s.filter fun c => !isLineBreak c

/-- Groups of four alphabet symbols, the last group possibly `xx==` or
`xxx=`. -/
def validGroups : Bytes → Bool
  | a :: b :: c :: d :: rest =>
    if isAlphabet a ∧ isAlphabet b ∧ isAlphabet c ∧ isAlphabet d then validGroups rest
    else rest = [] ∧ isAlphabet a ∧ isAlphabet b ∧ d = 61 ∧ (c = 61 ∨ isAlphabet c)
  | [] => true
  | _ => false

/-- Valid standard base64 as `encoding/base64` reads it: after the line breaks
are dropped, the padded syntax of RFC 4648, section 4. -/
def ValidBase64 (s : Bytes) : Prop := validGroups (stripLineBreaks s) = true

instance (s : Bytes) : Decidable (ValidBase64 s) := by unfold ValidBase64; infer_instance

/-- What a symbol loop that ends without error has read, from `rest` at
offset `si` with `j` symbols of the quantum already there: nothing but line
breaks up to the end of the input; or a full quantum; or a padded last
quantum up to the end of the input. -/
def ScanOK (rest : Bytes) (si j : Nat) : Scan → Prop
  | .ret si1 none => j = 0 ∧ stripLineBreaks rest = [] ∧ si1 = si + rest.length
  | .brk si1 _ dlen none =>
    (dlen = 4 ∧ ∃ used rem, rest = used ++ rem ∧ si1 = si + used.length ∧
      (stripLineBreaks used).length + j = 4 ∧ ∀ c ∈ stripLineBreaks used, isAlphabet c = true) ∨
    (2 ≤ dlen ∧ dlen < 4 ∧ j ≤ dlen ∧ si1 = si + rest.length ∧
      ∃ body, stripLineBreaks rest = body ++ List.replicate (4 - dlen) 61 ∧
        body.length + j = dlen ∧ ∀ c ∈ body, isAlphabet c = true)
  | _ => True

/-- The input before offset `si` holds, line breaks apart, `m` symbols, all of
the alphabet. -/
def ReadSoFar (src : Bytes) (si m : Nat) : Prop :=
  si ≤ src.length ∧ (stripLineBreaks (src.take si)).length = m ∧
    ∀ c ∈ stripLineBreaks (src.take si), isAlphabet c = true

/-- The invariant of the loops of `Decode` while no error has come up: whole
quanta of alphabet symbols have been read, or the input has been read to its
end and is valid. -/
def Accepting (src : Bytes) (st : DecState) : Prop :=
  (∃ m, m % 4 = 0 ∧ ReadSoFar src st.si m) ∨ (st.si = src.length ∧ ValidBase64 src)

/-- The state of `Decode` on an encoded byte sequence after the bytes `out`
have been written and while the bytes `rest` are still to be decoded: the
buffer holds `out` and zeros, the input from `si` on is the encoding of
`rest`. -/
def MidAt (src out rest : Bytes) (st : DecState) : Prop :=
  st.dst = out ++ List.replicate ((rest.length + 2) / 3 * 3 - 1) 0 ∧ st.n = out.length ∧
    src.drop st.si = stdEncode rest

instance (bs : Bytes) : Decidable (IsBytes bs) := by unfold IsBytes; infer_instance

/-! ## Sample inputs -/

/-- A 32-byte key. -/
def sampleKey : Bytes := B "abcdefghijklmnopqrstuvwxyz123456"

/-- A second 32-byte key. -/
def samplePeerKey : Bytes := B "0123456789abcdefghijklmnopqrstuv"

/-- A resolver that answers every name with two addresses. -/
def sampleResolver : Resolver := fun _ => .ok [B "192.0.2.1", B "2001:db8::1"]

/-- A configuration with two valid keys. -/
def sampleConfig : WireGuardConfig where
  Interface := { PrivateKey := stdEncode sampleKey, Address := B "10.0.0.2/32", DNS := B "10.0.0.1" }
  Peer := { PublicKey := stdEncode samplePeerKey, AllowedIPs := B "10.0.0.0/8,192.168.1.0/24",
            Endpoint := B "vpn.example.com:51820", PersistentKeepalive := 25 }

/-- The sample configuration with another `AllowedIPs` string. -/
def withAllowedIPs (allowed : Bytes) : WireGuardConfig :=
  { sampleConfig with Peer := { sampleConfig.Peer with AllowedIPs := allowed } }

/-- The sample configuration with another peer public key. -/
def withPublicKey (key : Bytes) : WireGuardConfig :=
  { sampleConfig with Peer := { sampleConfig.Peer with PublicKey := key } }

/-- The sample configuration with another interface private key. -/
def withPrivateKey (key : Bytes) : WireGuardConfig :=
  { sampleConfig with Interface := { sampleConfig.Interface with PrivateKey := key } }

/-- A resolver that answers every name with one IPv4 address. -/
def ipv4Resolver : Resolver := fun _ => .ok [B "192.0.2.1"]

/-- A world in which every collaborator succeeds, with the given scheme of
`PROXY_TO`. The resolver answers with one IPv4 address, so the control
document is one the tunnel engine accepts. -/
def sampleWorld (scheme : Bytes) : World where
  flagParse := true
  envParse := some { ProxyTo := scheme ++ B "://10.0.0.5:8000", ProxyToScheme := scheme,
                     WireguardConfigFname := B "wg0.conf", Listen := B ":8080" }
  ReadFileInto := fun _ => some sampleConfig
  ParsePrefix := fun _ => some (B "10.0.0.2")
  ParseAddr := fun _ => some (B "10.0.0.1")
  CreateNetTUN := fun _ _ _ => true
  LookupHost := ipv4Resolver
  IpcSetOperation := fun _ => true
  Up := true

/-! ## The decoder on an encoded key -/

theorem decodeMap_encodeChar : ∀ v < 64, decodeMap (encodeChar v) = v := by decide

theorem or_shift (q n i j : Nat) (hj : j = i + 6) (hn : n < 64) :
    q <<< j ||| n <<< i = (q * 64 + n) <<< i := by
  subst hj
  have h : n * 2 ^ i < 2 ^ (i + 6) := by
    rw [pow_add, Nat.mul_comm]
    exact Nat.mul_lt_mul_of_pos_left hn (by positivity)
  have := Nat.mul_add_lt_is_or h q
  simp only [Nat.shiftLeft_eq]
  rw [Nat.mul_comm q, ← this, pow_add]
  ring

theorem or_lt_64 {a b : Nat} (ha : a < 64) (hb : b < 64) : a ||| b < 64 :=
  Nat.or_lt_two_pow (n := 6) ha hb

theorem assemble64_digits (n1 n2 n3 n4 n5 n6 n7 n8 : Nat) (h1 : n1 < 64) (h2 : n2 < 64)
    (h3 : n3 < 64) (h4 : n4 < 64) (h5 : n5 < 64) (h6 : n6 < 64) (h7 : n7 < 64) (h8 : n8 < 64) :
    assemble64 n1 n2 n3 n4 n5 n6 n7 n8 =
      some ((((((((n1 * 64 + n2) * 64 + n3) * 64 + n4) * 64 + n5) * 64 + n6) * 64 + n7) * 64 + n8)
        * 65536) := by
  unfold assemble64
  have hne : n1 ||| n2 ||| n3 ||| n4 ||| n5 ||| n6 ||| n7 ||| n8 ≠ 0xff := by
    have := or_lt_64 (or_lt_64 (or_lt_64 (or_lt_64 (or_lt_64 (or_lt_64 (or_lt_64 h1 h2) h3) h4) h5) h6) h7) h8
    omega
  rw [if_neg hne]
  rw [or_shift n1 n2 52 58 rfl h2, or_shift _ n3 46 52 rfl h3, or_shift _ n4 40 46 rfl h4,
    or_shift _ n5 34 40 rfl h5, or_shift _ n6 28 34 rfl h6, or_shift _ n7 22 28 rfl h7,
    or_shift _ n8 16 22 rfl h8, Nat.shiftLeft_eq]
  congr 1
  omega

theorem or_low (q n : Nat) (hn : n < 64) : q <<< 6 ||| n = q * 64 + n := by
  have := Nat.mul_add_lt_is_or (i := 6) (b := n) hn q
  rw [Nat.shiftLeft_eq, Nat.mul_comm q, ← this]

theorem quantumBytes_digits (d0 d1 d2 d3 : Nat) (h1 : d1 < 64) (h2 : d2 < 64) (h3 : d3 < 64) :
    quantumBytes [d0, d1, d2, d3] =
      ((((d0 * 64 + d1) * 64 + d2) * 64 + d3) / 65536 % 256,
        (((d0 * 64 + d1) * 64 + d2) * 64 + d3) / 256 % 256,
        (((d0 * 64 + d1) * 64 + d2) * 64 + d3) % 256) := by
  simp only [quantumBytes, List.getD_cons_zero, List.getD_cons_succ]
  rw [or_shift d0 d1 12 18 rfl h1, or_shift _ d2 6 12 rfl h2, or_low _ d3 h3]
  simp [Nat.shiftRight_eq_div_pow]

theorem quantumBytes_three (a b c : Nat) (ha : a < 256) (hb : b < 256) (hc : c < 256) :
    quantumBytes [a / 4, a % 4 * 16 + b / 16, b % 16 * 4 + c / 64, c % 64] = (a, b, c) := by
  rw [quantumBytes_digits _ _ _ _ (by omega) (by omega) (by omega)]
  simp only [Prod.mk.injEq]
  omega

theorem quantumBytes_two (a b : Nat) (ha : a < 256) (hb : b < 256) :
    ∃ z, quantumBytes [a / 4, a % 4 * 16 + b / 16, b % 16 * 4, 0] = (a, b, z) := by
  rw [quantumBytes_digits _ _ _ _ (by omega) (by omega) (by omega)]
  refine ⟨(((a / 4 * 64 + (a % 4 * 16 + b / 16)) * 64 + b % 16 * 4) * 64 + 0) % 256, ?_⟩
  simp only [Prod.mk.injEq, and_true]
  constructor <;> omega

theorem putUint64_six (dst : Bytes) (n a b c d e f : Nat) (ha : a < 256) (hb : b < 256)
    (hc : c < 256) (hd : d < 256) (he : e < 256) (hf : f < 256) :
    putUint64 dst n
      ((((((((a / 4 * 64 + (a % 4 * 16 + b / 16)) * 64 + (b % 16 * 4 + c / 64)) * 64 + c % 64) * 64
        + d / 4) * 64 + (d % 4 * 16 + e / 16)) * 64 + (e % 16 * 4 + f / 64)) * 64 + f % 64) * 65536)
      = putBytes dst n [a, b, c, d, e, f, 0, 0] := by
  unfold putUint64
  simp only [Nat.shiftRight_eq_div_pow]
  congr 1
  simp only [List.cons.injEq, and_true]
  refine ⟨?_, ?_, ?_, ?_, ?_, ?_, ?_, ?_⟩ <;> omega

theorem getD_of_drop (src r : Bytes) (si j : Nat) (h : src.drop si = r) :
    src.getD (si + j) 0 = r.getD j 0 := by
  subst h
  simp [List.getD_eq_getElem?_getD, List.getElem?_drop]

theorem length_of_drop (src r : Bytes) (si : Nat) (h : src.drop si = r) :
    src.length - si = r.length := by
  subst h; simp

theorem drop_add_of_drop (src l r : Bytes) (si : Nat) (h : src.drop si = l ++ r) :
    src.drop (si + l.length) = r := by
  rw [← List.drop_drop, h, List.drop_left]

theorem putBytes_zeros (out bs : Bytes) (m : Nat) :
    putBytes (out ++ List.replicate m 0) out.length bs =
      out ++ bs ++ List.replicate (m - bs.length) 0 := by
  unfold putBytes
  rw [List.take_left, List.drop_append_eq_append_drop]
  simp [List.drop_eq_nil_of_le]

theorem loop64_step (src : Bytes) (fuel : Nat) (dst : Bytes) (n si a b c d e f : Nat) (r : Bytes)
    (ha : a < 256) (hb : b < 256) (hc : c < 256) (hd : d < 256) (he : e < 256) (hf : f < 256)
    (hsrc : src.drop si = stdEncode [a, b, c, d, e, f] ++ r) (hroom : 8 ≤ dst.length - n) :
    loop64 src (fuel + 1) ⟨dst, n, si⟩ =
      loop64 src fuel ⟨putBytes dst n [a, b, c, d, e, f, 0, 0], n + 6, si + 8⟩ := by
  have hlen := length_of_drop _ _ _ hsrc
  have h0 := getD_of_drop _ _ _ 0 hsrc
  have h1 := getD_of_drop _ _ _ 1 hsrc
  have h2 := getD_of_drop _ _ _ 2 hsrc
  have h3 := getD_of_drop _ _ _ 3 hsrc
  have h4 := getD_of_drop _ _ _ 4 hsrc
  have h5 := getD_of_drop _ _ _ 5 hsrc
  have h6 := getD_of_drop _ _ _ 6 hsrc
  have h7 := getD_of_drop _ _ _ 7 hsrc
  simp only [stdEncode, List.cons_append, List.nil_append, List.getD_cons_zero,
    List.getD_cons_succ, List.length_cons, Nat.add_zero] at hlen h0 h1 h2 h3 h4 h5 h6 h7
  have hcond : 64 ≤ IntSize ∧ 8 ≤ src.length - si ∧ 8 ≤ dst.length - n :=
    ⟨by decide, by omega, hroom⟩
  rw [loop64]
  simp only [hcond, and_self, if_true, h0, h1, h2, h3, h4, h5, h6, h7]
  rw [decodeMap_encodeChar _ (by omega), decodeMap_encodeChar _ (by omega),
    decodeMap_encodeChar _ (by omega), decodeMap_encodeChar _ (by omega),
    decodeMap_encodeChar _ (by omega), decodeMap_encodeChar _ (by omega),
    decodeMap_encodeChar _ (by omega), decodeMap_encodeChar _ (by omega)]
  rw [assemble64_digits _ _ _ _ _ _ _ _ (by omega) (by omega) (by omega) (by omega) (by omega)
    (by omega) (by omega) (by omega)]
  simp only
  rw [putUint64_six _ _ _ _ _ _ _ _ ha hb hc hd he hf]

theorem loop64_enc (src : Bytes) : ∀ (k : Nat) (bs : Bytes), bs.length = 6 * k → IsBytes bs →
    ∀ (fuel si m : Nat) (out tail : Bytes), src.drop si = stdEncode bs ++ tail → 6 * k + 2 ≤ m →
      loop64 src (fuel + k) ⟨out ++ List.replicate m 0, out.length, si⟩ =
        loop64 src fuel ⟨out ++ bs ++ List.replicate (m - 6 * k) 0, out.length + 6 * k,
          si + 8 * k⟩ := by
  intro k
  induction k with
  | zero =>
    intro bs hlen _ fuel si m out tail _ _
    have : bs = [] := List.length_eq_zero.mp (by omega)
    subst this
    simp
  | succ k ih =>
    intro bs hlen hbs fuel si m out tail hsrc hm
    match bs, hlen with
    | a :: b :: c :: d :: e :: f :: rest, hlen =>
      have hb : ∀ x ∈ [a, b, c, d, e, f], x < 256 := fun x hx =>
        hbs x (by simp at hx ⊢; tauto)
      have hrest : IsBytes rest := fun x hx => hbs x (by simp [hx])
      have hsrc1 : src.drop si = stdEncode [a, b, c, d, e, f] ++ (stdEncode rest ++ tail) := by
        rw [hsrc]; simp [stdEncode]
      have hstep := loop64_step src (fuel + k) (out ++ List.replicate m 0) out.length si a b c d e f
        (stdEncode rest ++ tail) (hb a (by simp)) (hb b (by simp)) (hb c (by simp))
        (hb d (by simp)) (hb e (by simp)) (hb f (by simp)) hsrc1 (by simp; omega)
      have hsrc2 : src.drop (si + 8) = stdEncode rest ++ tail := by
        have := drop_add_of_drop src (stdEncode [a, b, c, d, e, f]) _ si hsrc1
        simpa [stdEncode] using this
      have hput : putBytes (out ++ List.replicate m 0) out.length [a, b, c, d, e, f, 0, 0] =
          (out ++ [a, b, c, d, e, f]) ++ List.replicate (m - 6) 0 := by
        rw [putBytes_zeros]
        have : m - 6 = (m - 8) + 2 := by omega
        simp [this, List.replicate_succ]
      have hlen' : rest.length = 6 * k := by simp at hlen; omega
      have := ih rest hlen' hrest fuel (si + 8) (m - 6) (out ++ [a, b, c, d, e, f]) tail hsrc2
        (by omega)
      rw [show fuel + (k + 1) = fuel + k + 1 by omega, hstep, hput]
      simp only [List.length_append, List.length_cons, List.length_nil] at this
      rw [show out.length + 6 = out.length + (0 + 1 + 1 + 1 + 1 + 1 + 1) by omega, this]
      congr 2
      · simp; omega
      · omega
      · omega

theorem stdEncode_append : ∀ (k : Nat) (l r : Bytes), l.length = 3 * k →
    stdEncode (l ++ r) = stdEncode l ++ stdEncode r := by
  intro k
  induction k with
  | zero =>
    intro l r h
    have : l = [] := List.length_eq_zero.mp (by omega)
    subst this; simp [stdEncode]
  | succ k ih =>
    intro l r h
    match l, h with
    | a :: b :: c :: rest, h =>
      have : rest.length = 3 * k := by simp at h; omega
      simp [stdEncode, ih rest r this]

theorem stdEncode_length (l : Bytes) : (stdEncode l).length = (l.length + 2) / 3 * 4 := by
  induction l using stdEncode.induct with
  | case1 a b c rest ih => simp [stdEncode, ih]; omega
  | case2 a b => simp [stdEncode]
  | case3 a => simp [stdEncode]
  | case4 => simp [stdEncode]

theorem decodeMap_pad : decodeMap 61 = 0xff := by decide

theorem quantumLoop_digit (L : Nat) (v : Nat) (tl : Bytes) (si j : Nat) (dbuf : List Nat)
    (hv : v < 64) (hj : j < 4) :
    quantumLoop L (encodeChar v :: tl) si j dbuf =
      quantumLoop L tl (si + 1) (j + 1) (dbuf.set j v) := by
  rw [quantumLoop]
  have h1 : ¬ 4 ≤ j := by omega
  have h2 : decodeMap (encodeChar v) ≠ 0xff := by rw [decodeMap_encodeChar v hv]; omega
  have h3 : ¬ v = 255 := by omega
  simp only [h1, if_false, ne_eq, decodeMap_encodeChar v hv, h3, not_false_eq_true, if_true]

theorem store_append_one (out : Bytes) (u v y : Nat) :
    store (out ++ [u, v]) (out.length + 1) y = some (out ++ [u, y]) := by
  simp [store, List.set_append_right]

theorem store_append_zero (out : Bytes) (u v x : Nat) :
    store (out ++ [u, v]) out.length x = some (out ++ [x, v]) := by
  simp [store, List.set_append_right]

theorem decodeQuantum_two (src out : Bytes) (si x y : Nat) (hx : x < 256) (hy : y < 256)
    (hsrc : src.drop si = stdEncode [x, y]) :
    decodeQuantum src ⟨out ++ [0, 0], out.length, si⟩ =
      some (⟨out ++ [x, y], out.length + 2, si + 4⟩, none) := by
  obtain ⟨z, hz⟩ := quantumBytes_two x y hx hy
  unfold decodeQuantum
  simp only [List.length_append, List.length_cons, List.length_nil, hsrc, stdEncode]
  rw [if_neg (by omega), quantumLoop_digit _ _ _ _ _ _ (by omega) (by omega),
    quantumLoop_digit _ _ _ _ _ _ (by omega) (by omega),
    quantumLoop_digit _ _ _ _ _ _ (by omega) (by omega)]
  simp [quantumLoop, decodeMap_pad, finishPadding, skipNewlines, writeQuantum, hz,
    store_append_one, store_append_zero]

theorem Decode_key (bs : Bytes) (hlen : bs.length = 32) (hbs : IsBytes bs) :
    Decode (List.replicate 32 0) (stdEncode bs) = .next ⟨bs, 32, 44⟩ := by
  have hsplit : bs = bs.take 30 ++ bs.drop 30 := (List.take_append_drop 30 bs).symm
  have htake : (bs.take 30).length = 6 * 5 := by simp [hlen]
  have hdrop : (bs.drop 30).length = 2 := by simp [hlen]
  obtain ⟨x, y, hxy⟩ : ∃ x y, bs.drop 30 = [x, y] := by
    match bs.drop 30, hdrop with
    | [x, y], _ => exact ⟨x, y, rfl⟩
  have hx : x < 256 := hbs x (List.mem_of_mem_drop (by rw [hxy]; simp))
  have hy : y < 256 := hbs y (List.mem_of_mem_drop (by rw [hxy]; simp))
  have htb : IsBytes (bs.take 30) := fun b hb => hbs b (List.mem_of_mem_take hb)
  have henc : stdEncode bs = stdEncode (bs.take 30) ++ stdEncode [x, y] := by
    conv_lhs => rw [hsplit]
    rw [stdEncode_append 10 _ _ (by simp [hlen]), hxy]
  have hl : (stdEncode bs).length = 44 := by rw [stdEncode_length, hlen]
  have hl30 : (stdEncode (bs.take 30)).length = 40 := by rw [stdEncode_length, htake]
  have hd0 : (stdEncode bs).drop 0 = stdEncode (bs.take 30) ++ stdEncode [x, y] := by
    rw [List.drop_zero, henc]
  have hd40 : (stdEncode bs).drop 40 = stdEncode [x, y] := by
    rw [henc, ← hl30, List.drop_left]
  have h64 := loop64_enc (stdEncode bs) 5 (bs.take 30) htake htb 40 0 32 [] (stdEncode [x, y])
    hd0 (by omega)
  simp only [List.nil_append, List.length_nil, Nat.zero_add, Nat.reduceMul, Nat.reduceAdd,
    Nat.reduceSub] at h64
  have hne : (stdEncode bs).length ≠ 0 := by omega
  unfold Decode
  rw [if_neg hne, hl, h64]
  have hq := decodeQuantum_two (stdEncode bs) (bs.take 30) 40 x y hx hy hd40
  simp only [List.length_take, hlen, Nat.min_self, Nat.reduceAdd] at hq
  have h30 : min 30 32 = 30 := by decide
  rw [h30] at hq
  have hrep : List.replicate 2 0 = [0, 0] := rfl
  simp [loop64, loop32, loopTail, slowStep, hl, hlen, hrep, hq, ← hxy]

theorem key2hex_of_stdEncode (bs : Bytes) (hlen : bs.length = 32) (hbs : IsBytes bs) :
    key2hex (stdEncode bs) = .ok (EncodeToString bs) := by
  have hl : ((DecodedLen (stdEncode bs).length : Nat) : Int) - 1 = 32 := by
    rw [stdEncode_length, hlen]; decide
  have h32 : (32 : Int).toNat = 32 := rfl
  unfold key2hex
  simp only [hl]
  rw [if_neg (by decide), h32, Decode_key bs hlen hbs]

theorem EncodeToString_length (bs : Bytes) : (EncodeToString bs).length = 2 * bs.length := by
  induction bs with
  | nil => rfl
  | cons v tl ih => simp [EncodeToString, ih]; omega

theorem hextable_getD_mem : ∀ k < 16, hextable.getD k 0 ∈ hextable := by decide

theorem hexVal_hextable : ∀ k < 16, hexVal (hextable.getD k 0) = k := by decide

theorem and_15 (v : Nat) : v &&& 0x0f = v % 16 :=
  Nat.and_pow_two_sub_one_eq_mod v 4

theorem EncodeToString_mem (bs : Bytes) (hbs : IsBytes bs) :
    ∀ c ∈ EncodeToString bs, c ∈ hextable := by
  induction bs with
  | nil => simp [EncodeToString]
  | cons v tl ih =>
    have hv : v < 256 := hbs v (by simp)
    have htl : IsBytes tl := fun b hb => hbs b (by simp [hb])
    intro c hc
    simp only [EncodeToString, List.mem_cons] at hc
    rcases hc with rfl | rfl | hc
    · exact hextable_getD_mem _ (by rw [Nat.shiftRight_eq_div_pow]; omega)
    · exact hextable_getD_mem _ (by rw [and_15]; omega)
    · exact ih htl c hc

theorem EncodeToString_pair (bs : Bytes) (hbs : IsBytes bs) : ∀ i < bs.length,
    hexVal ((EncodeToString bs).getD (2 * i) 0) * 16 +
      hexVal ((EncodeToString bs).getD (2 * i + 1) 0) = bs.getD i 0 := by
  induction bs with
  | nil => intro i hi; simp at hi
  | cons v tl ih =>
    have hv : v < 256 := hbs v (by simp)
    have htl : IsBytes tl := fun b hb => hbs b (by simp [hb])
    intro i hi
    cases i with
    | zero =>
      simp only [EncodeToString, Nat.mul_zero, List.getD_cons_zero, Nat.zero_add,
        List.getD_cons_succ]
      rw [hexVal_hextable _ (by rw [Nat.shiftRight_eq_div_pow]; omega),
        hexVal_hextable _ (by rw [and_15]; omega), and_15, Nat.shiftRight_eq_div_pow]
      omega
    | succ i =>
      have := ih htl i (by simpa using hi)
      simpa [EncodeToString, Nat.mul_add, List.getD_cons_succ] using this

theorem encodeChar_ne_pad : ∀ v < 64, encodeChar v ≠ 61 := by decide

theorem stdEncode_count_pad : ∀ (k : Nat) (l : Bytes), l.length = 3 * k → IsBytes l →
    (stdEncode l).count 61 = 0 := by
  intro k
  induction k with
  | zero =>
    intro l h _
    have : l = [] := List.length_eq_zero.mp (by omega)
    subst this; simp [stdEncode]
  | succ k ih =>
    intro l h hl
    match l, h with
    | a :: b :: c :: rest, h =>
      have ha : a < 256 := hl a (by simp)
      have hb : b < 256 := hl b (by simp)
      have hc : c < 256 := hl c (by simp)
      have hrest : IsBytes rest := fun x hx => hl x (by simp [hx])
      have h1 := encodeChar_ne_pad (a / 4) (by omega)
      have h2 := encodeChar_ne_pad (a % 4 * 16 + b / 16) (by omega)
      have h3 := encodeChar_ne_pad (b % 16 * 4 + c / 64) (by omega)
      have h4 := encodeChar_ne_pad (c % 64) (by omega)
      have := ih rest (by simp at h; omega) hrest
      simp [stdEncode, List.count_cons, h1, h2, h3, h4, this]

/-- C3: for every sequence `bs` of exactly 32 bytes, `key2hex` applied to the
standard padded base64 encoding of `bs` (44 characters, the last one the only
`=`) returns, without error, the lowercase hexadecimal encoding of `bs`: 64
characters of `0123456789abcdef`, the `i`-th pair of which spells byte `i`. -/
theorem key2hex_stdEncode (bs : Bytes) (hlen : bs.length = 32) (hbs : IsBytes bs) :
    key2hex (stdEncode bs) = .ok (EncodeToString bs) ∧
      (stdEncode bs).length = 44 ∧ (stdEncode bs).getLast? = some 61 ∧
      (stdEncode bs).count 61 = 1 ∧
      (EncodeToString bs).length = 64 ∧
      (∀ c ∈ EncodeToString bs, c ∈ B "0123456789abcdef") ∧
      ∀ i < 32, hexVal ((EncodeToString bs).getD (2 * i) 0) * 16 +
        hexVal ((EncodeToString bs).getD (2 * i + 1) 0) = bs.getD i 0 := by
  have hsplit : bs = bs.take 30 ++ bs.drop 30 := (List.take_append_drop 30 bs).symm
  have hdrop : (bs.drop 30).length = 2 := by simp [hlen]
  obtain ⟨x, y, hxy⟩ : ∃ x y, bs.drop 30 = [x, y] := by
    match bs.drop 30, hdrop with
    | [x, y], _ => exact ⟨x, y, rfl⟩
  have hx : x < 256 := hbs x (List.mem_of_mem_drop (by rw [hxy]; simp))
  have hy : y < 256 := hbs y (List.mem_of_mem_drop (by rw [hxy]; simp))
  have htb : IsBytes (bs.take 30) := fun b hb => hbs b (List.mem_of_mem_take hb)
  have henc : stdEncode bs = stdEncode (bs.take 30) ++ stdEncode [x, y] := by
    conv_lhs => rw [hsplit]
    rw [stdEncode_append 10 _ _ (by simp [hlen]), hxy]
  have h1 := encodeChar_ne_pad (x / 4) (by omega)
  have h2 := encodeChar_ne_pad (x % 4 * 16 + y / 16) (by omega)
  have h3 := encodeChar_ne_pad (y % 16 * 4) (by omega)
  refine ⟨key2hex_of_stdEncode bs hlen hbs, by rw [stdEncode_length, hlen], ?_, ?_,
    by rw [EncodeToString_length, hlen], EncodeToString_mem bs hbs, ?_⟩
  · rw [henc]; simp [stdEncode]
  · rw [henc, List.count_append, stdEncode_count_pad 10 _ (by simp [hlen]) htb]
    simp [stdEncode, List.count_cons, h1, h2, h3]
  · intro i hi
    exact EncodeToString_pair bs hbs i (by omega)

theorem key2hex_stdEncode_witness :
    sampleKey.length = 32 ∧ IsBytes sampleKey ∧
      key2hex (stdEncode sampleKey) = .ok (EncodeToString sampleKey) :=
  ⟨by decide, by decide, (key2hex_stdEncode sampleKey (by decide) (by decide)).1⟩

/-! ## The control document -/

theorem foldl_append_eq (f : Bytes → Bytes) (l : List Bytes) (init : Bytes) :
    l.foldl (fun out x => out ++ f x) init = init ++ (l.map f).flatten := by
  induction l generalizing init with
  | nil => simp
  | cons x tl ih => simp [ih, List.append_assoc]

theorem UAPI_of_ok (lookup : Resolver) (wc : WireGuardConfig) (k1 k2 h p : Bytes)
    (addrs : List Bytes) (hk1 : key2hex wc.Interface.PrivateKey = .ok k1)
    (hk2 : key2hex wc.Peer.PublicKey = .ok k2)
    (hsplit : SplitHostPort wc.Peer.Endpoint = .ok (h, p)) (hlook : lookup h = .ok addrs) :
    UAPI lookup wc =
      (controlDocument k1 k2 p addrs wc.Peer.AllowedIPs wc.Peer.PersistentKeepalive, .ok ()) := by
  unfold UAPI
  simp only [hk1, hk2, hsplit, hlook, foldl_append_eq]
  delta endpointLine allowedLine
  simp [controlDocument, unlines, endpointLine, allowedLine, List.map_append, List.append_assoc,
    Function.comp_def]

theorem UAPI_ok_inv (lookup : Resolver) (wc : WireGuardConfig) (doc : Bytes)
    (h : UAPI lookup wc = (doc, .ok ())) :
    ∃ k1 k2 host p addrs, key2hex wc.Interface.PrivateKey = .ok k1 ∧
      key2hex wc.Peer.PublicKey = .ok k2 ∧ SplitHostPort wc.Peer.Endpoint = .ok (host, p) ∧
      lookup host = .ok addrs ∧
      doc = controlDocument k1 k2 p addrs wc.Peer.AllowedIPs wc.Peer.PersistentKeepalive := by
  cases hk1 : key2hex wc.Interface.PrivateKey with
  | error e => simp [UAPI, hk1] at h
  | panic => simp [UAPI, hk1] at h
  | diverge => simp [UAPI, hk1] at h
  | ok k1 =>
    cases hk2 : key2hex wc.Peer.PublicKey with
    | error e => simp [UAPI, hk1, hk2] at h
    | panic => simp [UAPI, hk1, hk2] at h
    | diverge => simp [UAPI, hk1, hk2] at h
    | ok k2 =>
      cases hs : SplitHostPort wc.Peer.Endpoint with
      | error e => simp [UAPI, hk1, hk2, hs] at h
      | ok hp =>
        obtain ⟨host, p⟩ := hp
        cases hl : lookup host with
        | error e => simp [UAPI, hk1, hk2, hs, hl] at h
        | ok addrs =>
          refine ⟨k1, k2, host, p, addrs, rfl, rfl, rfl, hl, ?_⟩
          have := UAPI_of_ok lookup wc k1 k2 host p addrs hk1 hk2 hs hl
          rw [h] at this
          exact (Prod.mk.inj this).1

theorem Split_ne_nil (sep : Nat) (s : Bytes) : Split sep s ≠ [] := by
  induction s with
  | nil => simp [Split]
  | cons c tl ih =>
    by_cases h : c = sep
    · simp [Split, h]
    · cases hs : Split sep tl with
      | nil => exact absurd hs ih
      | cons p ps => simp [Split, h, hs]

theorem Split_of_not_mem (sep : Nat) (s : Bytes) (h : sep ∉ s) : Split sep s = [s] := by
  induction s with
  | nil => rfl
  | cons c tl ih =>
    have hc : c ≠ sep := fun e => h (by simp [e])
    have ht : sep ∉ tl := fun e => h (by simp [e])
    simp [Split, hc, ih ht]

theorem Split_append_of_not_mem (sep : Nat) (l r : Bytes) (h : sep ∉ l) :
    Split sep (l ++ sep :: r) = l :: Split sep r := by
  induction l with
  | nil => simp [Split]
  | cons c tl ih =>
    have hc : c ≠ sep := fun e => h (by simp [e])
    have ht : sep ∉ tl := fun e => h (by simp [e])
    simp [Split, hc, ih ht]

theorem Split_append (sep : Nat) (s t : Bytes) :
    Split sep (s ++ sep :: t) = Split sep s ++ Split sep t := by
  induction s with
  | nil => simp [Split]
  | cons c tl ih =>
    by_cases h : c = sep
    · simp [Split, h, ih]
    · cases hs : Split sep tl with
      | nil => exact absurd hs (Split_ne_nil sep tl)
      | cons p ps => simp [Split, h, ih, hs]

theorem Split_length (sep : Nat) (s : Bytes) : (Split sep s).length = s.count sep + 1 := by
  induction s with
  | nil => rfl
  | cons c tl ih =>
    by_cases h : c = sep
    · simp [Split, h, ih]
    · cases hs : Split sep tl with
      | nil => exact absurd hs (Split_ne_nil sep tl)
      | cons p ps =>
        rw [hs] at ih
        simp [Split, h, hs, List.count_cons] at ih ⊢
        omega

theorem Join_Split (sep : Nat) (s : Bytes) : Join [sep] (Split sep s) = s := by
  induction s with
  | nil => rfl
  | cons c tl ih =>
    by_cases h : c = sep
    · cases hs : Split sep tl with
      | nil => exact absurd hs (Split_ne_nil sep tl)
      | cons p ps =>
        rw [hs] at ih
        simp [Split, h, hs, Join, ih]
    · cases hs : Split sep tl with
      | nil => exact absurd hs (Split_ne_nil sep tl)
      | cons p ps =>
        rw [hs] at ih
        cases ps with
        | nil => simp [Split, h, hs, Join] at ih ⊢; exact ih
        | cons q qs => simp [Split, h, hs, Join] at ih ⊢; exact ih

theorem Split_not_mem (sep : Nat) (s : Bytes) : ∀ p ∈ Split sep s, sep ∉ p := by
  induction s with
  | nil => simp [Split]
  | cons c tl ih =>
    by_cases h : c = sep
    · simp only [Split, h, if_true, List.mem_cons]
      rintro p (rfl | hp)
      · simp
      · exact ih p hp
    · cases hs : Split sep tl with
      | nil => exact absurd hs (Split_ne_nil sep tl)
      | cons q qs =>
        rw [hs] at ih
        simp only [Split, h, if_false, hs, List.mem_cons]
        rintro p (rfl | hp)
        · have := ih q (by simp)
          simp [this, Ne.symm h]
        · exact ih p (by simp [hp])

theorem B_newline : B "\n" = [10] := by decide

theorem lines_unlines (ls : List Bytes) (h : ∀ l ∈ ls, 10 ∉ l) :
    lines (unlines ls) = ls ++ [[]] := by
  induction ls with
  | nil => rfl
  | cons l tl ih =>
    have hl : 10 ∉ l := h l (by simp)
    have ht : ∀ x ∈ tl, 10 ∉ x := fun x hx => h x (by simp [hx])
    have := ih ht
    simp only [lines, unlines, List.map_cons, List.flatten_cons, B_newline, List.append_assoc,
      List.singleton_append, List.cons_append] at this ⊢
    rw [Split_append_of_not_mem 10 l _ hl, List.nil_append, this]

theorem linesWith_unlines (pre : Bytes) (ls : List Bytes) (hpre : pre ≠ [])
    (h : ∀ l ∈ ls, 10 ∉ l) :
    linesWith pre (unlines ls) = ls.filter fun l => pre.isPrefixOf l := by
  unfold linesWith
  rw [lines_unlines ls h, List.filter_append]
  cases pre with
  | nil => exact absurd rfl hpre
  | cons a as => simp [List.isPrefixOf]

/-! ## The lines of the control document -/

theorem hextable_getD_ne_lf (i : Nat) : hextable.getD i 0 ≠ 10 := by
  by_cases h : i < 16
  · revert i; decide
  · rw [List.getD_eq_default _ _ (by simpa [hextable, B] using Nat.le_of_not_lt h)]
    decide

theorem EncodeToString_no_lf (l : Bytes) : 10 ∉ EncodeToString l := by
  induction l with
  | nil => simp [EncodeToString]
  | cons v tl ih =>
    simp only [EncodeToString, List.mem_cons, not_or]
    exact ⟨(hextable_getD_ne_lf _).symm, (hextable_getD_ne_lf _).symm, ih⟩

theorem key2hex_ok (s k : Bytes) (h : key2hex s = .ok k) :
    ∃ st, 1 ≤ DecodedLen s.length ∧
      Decode (List.replicate (DecodedLen s.length - 1) 0) s = .next st ∧
      k = EncodeToString st.dst := by
  dsimp only [key2hex] at h
  by_cases hl : ((DecodedLen s.length : Nat) : Int) - 1 < 0
  · rw [if_pos hl] at h; cases h
  · rw [if_neg hl] at h
    have hn : (((DecodedLen s.length : Nat) : Int) - 1).toNat = DecodedLen s.length - 1 := by
      omega
    rw [hn] at h
    cases hd : Decode (List.replicate (DecodedLen s.length - 1) 0) s with
    | panic => rw [hd] at h; cases h
    | diverge => rw [hd] at h; cases h
    | fail st e => rw [hd] at h; cases h
    | next st =>
      rw [hd] at h
      refine ⟨st, by omega, rfl, ?_⟩
      simpa using h.symm

theorem key2hex_ok_no_lf (s k : Bytes) (h : key2hex s = .ok k) : 10 ∉ k := by
  obtain ⟨st, _, _, rfl⟩ := key2hex_ok s k h
  exact EncodeToString_no_lf _

theorem digitChar_ne_lf : ∀ d < 10, (Nat.digitChar d).toNat ≠ 10 := by decide

theorem toDigitsCore_no_lf : ∀ (fuel n : Nat) (ds : List Char),
    (∀ c ∈ ds, c.toNat ≠ 10) → ∀ c ∈ Nat.toDigitsCore 10 fuel n ds, c.toNat ≠ 10 := by
  intro fuel
  induction fuel with
  | zero => intro n ds h; simpa [Nat.toDigitsCore] using h
  | succ fuel ih =>
    intro n ds h
    have hd : (Nat.digitChar (n % 10)).toNat ≠ 10 := digitChar_ne_lf _ (Nat.mod_lt _ (by decide))
    have hds : ∀ c ∈ Nat.digitChar (n % 10) :: ds, c.toNat ≠ 10 := by
      intro c hc
      rcases List.mem_cons.mp hc with rfl | hc
      · exact hd
      · exact h c hc
    unfold Nat.toDigitsCore
    simp only
    split
    · exact hds
    · exact ih _ _ hds

theorem formatInt_no_lf (v : Int) : 10 ∉ formatInt v := by
  have h : 10 ∉ (Nat.toDigits 10 v.natAbs).map Char.toNat := by
    intro hm
    obtain ⟨c, hc, hc10⟩ := List.mem_map.mp hm
    exact toDigitsCore_no_lf _ _ [] (by simp) c hc hc10
  unfold formatInt
  split
  · simp only [List.mem_cons, not_or]
    exact ⟨by decide, h⟩
  · exact h

theorem isPrefixOf_false (pre l : Bytes) (n : Nat) (h1 : n < pre.length)
    (h3 : pre.getD n 0 ≠ l.getD n 0) : pre.isPrefixOf l = false := by
  rw [Bool.eq_false_iff]
  intro h
  rw [List.isPrefixOf_iff_prefix] at h
  obtain ⟨t, rfl⟩ := h
  exact h3 (List.getD_append _ _ _ _ h1).symm

theorem isPrefixOf_append_false (pre l x : Bytes) (n : Nat) (h1 : n < pre.length)
    (h2 : n < l.length) (h3 : pre.getD n 0 ≠ l.getD n 0) : pre.isPrefixOf (l ++ x) = false :=
  isPrefixOf_false pre (l ++ x) n h1 (by rw [List.getD_append _ _ _ _ h2]; exact h3)

theorem isPrefixOf_append_self (pre x : Bytes) : pre.isPrefixOf (pre ++ x) = true := by
  rw [List.isPrefixOf_iff_prefix]; exact List.prefix_append _ _

theorem Split_subset (sep : Nat) (s : Bytes) : ∀ p ∈ Split sep s, ∀ c ∈ p, c ∈ s := by
  induction s with
  | nil => simp [Split]
  | cons c tl ih =>
    by_cases h : c = sep
    · simp only [Split, h, if_true, List.mem_cons]
      rintro p (rfl | hp) x hx
      · simp at hx
      · exact Or.inr (ih p hp x hx)
    · cases hs : Split sep tl with
      | nil => exact absurd hs (Split_ne_nil sep tl)
      | cons q qs =>
        rw [hs] at ih
        simp only [Split, h, if_false, hs, List.mem_cons]
        rintro p (rfl | hp) x hx
        · rcases List.mem_cons.mp hx with rfl | hx
          · exact Or.inl rfl
          · exact Or.inr (ih q (by simp) x hx)
        · exact Or.inr (ih p (by simp [hp]) x hx)

/-- The four lines before the endpoints. -/
theorem controlDocument_no_lf (k1 k2 p : Bytes) (addrs : List Bytes) (allowed : Bytes) (ka : Int)
    (h1 : 10 ∉ k1) (h2 : 10 ∉ k2) (hp : 10 ∉ p) (ha : ∀ a ∈ addrs, 10 ∉ a)
    (hal : 10 ∉ allowed) :
    ∀ l ∈ [B "private_key=" ++ k1, B "listen_port=0", B "replace_peers=true",
        B "public_key=" ++ k2] ++ addrs.map (fun a => B "endpoint=" ++ a ++ B ":" ++ p) ++
      (Split 44 allowed).map (fun e => B "allowed_ip=" ++ e) ++
      [B "persistent_keepalive_interval=" ++ formatInt ka], 10 ∉ l := by
  have c1 : 10 ∉ B "private_key=" := by decide
  have c2 : 10 ∉ B "listen_port=0" := by decide
  have c3 : 10 ∉ B "replace_peers=true" := by decide
  have c4 : 10 ∉ B "public_key=" := by decide
  have c5 : 10 ∉ B "endpoint=" := by decide
  have c6 : 10 ∉ B ":" := by decide
  have c7 : 10 ∉ B "allowed_ip=" := by decide
  have c8 : 10 ∉ B "persistent_keepalive_interval=" := by decide
  intro l hl
  simp only [List.mem_append, List.mem_cons, List.mem_map, List.mem_singleton,
    List.not_mem_nil, or_false] at hl
  rcases hl with (((rfl | rfl | rfl | rfl) | ⟨a, ha', rfl⟩) | ⟨e, he, rfl⟩) | rfl
  · simp [c1, h1]
  · exact c2
  · exact c3
  · simp [c4, h2]
  · simp [c5, c6, hp, ha a ha']
  · have : 10 ∉ e := fun hx => hal (Split_subset 44 allowed e he 10 hx)
    simp [c7, this]
  · simp [c8, formatInt_no_lf]

theorem linesWith_controlDocument (pre k1 k2 p : Bytes) (addrs : List Bytes) (allowed : Bytes)
    (ka : Int) (hpre : pre ≠ []) (h1 : 10 ∉ k1) (h2 : 10 ∉ k2) (hp : 10 ∉ p)
    (ha : ∀ a ∈ addrs, 10 ∉ a) (hal : 10 ∉ allowed) :
    linesWith pre (controlDocument k1 k2 p addrs allowed ka) =
      ([B "private_key=" ++ k1, B "listen_port=0", B "replace_peers=true",
          B "public_key=" ++ k2] ++ addrs.map (fun a => B "endpoint=" ++ a ++ B ":" ++ p) ++
        (Split 44 allowed).map (fun e => B "allowed_ip=" ++ e) ++
        [B "persistent_keepalive_interval=" ++ formatInt ka]).filter fun l => pre.isPrefixOf l :=
  linesWith_unlines pre _ hpre (controlDocument_no_lf k1 k2 p addrs allowed ka h1 h2 hp ha hal)

theorem endpoint_lines_controlDocument (k1 k2 p : Bytes) (addrs : List Bytes) (allowed : Bytes)
    (ka : Int) (h1 : 10 ∉ k1) (h2 : 10 ∉ k2) (hp : 10 ∉ p) (ha : ∀ a ∈ addrs, 10 ∉ a)
    (hal : 10 ∉ allowed) :
    linesWith (B "endpoint=") (controlDocument k1 k2 p addrs allowed ka) =
      addrs.map (fun a => B "endpoint=" ++ a ++ B ":" ++ p) := by
  rw [linesWith_controlDocument _ k1 k2 p addrs allowed ka (by decide) h1 h2 hp ha hal]
  have e1 := isPrefixOf_append_false (B "endpoint=") (B "private_key=") k1 0 (by decide)
    (by decide) (by decide)
  have e2 := isPrefixOf_false (B "endpoint=") (B "listen_port=0") 0 (by decide) (by decide)
  have e3 := isPrefixOf_false (B "endpoint=") (B "replace_peers=true") 0 (by decide) (by decide)
  have e4 := isPrefixOf_append_false (B "endpoint=") (B "public_key=") k2 0 (by decide)
    (by decide) (by decide)
  have e5 : ∀ x, (B "endpoint=").isPrefixOf (B "persistent_keepalive_interval=" ++ x) = false :=
    fun x => isPrefixOf_append_false _ _ x 0 (by decide) (by decide) (by decide)
  have e6 : ∀ x, (B "endpoint=").isPrefixOf (B "allowed_ip=" ++ x) = false :=
    fun x => isPrefixOf_append_false _ _ x 0 (by decide) (by decide) (by decide)
  have e7 : ∀ x y, (B "endpoint=").isPrefixOf (B "endpoint=" ++ x ++ B ":" ++ y) = true := by
    intro x y
    rw [List.append_assoc, List.append_assoc]
    exact isPrefixOf_append_self _ _
  simp only [List.filter_append, List.filter_cons, List.filter_nil, e1, e2, e3, e4, e5,
    Bool.false_eq_true, if_false, List.nil_append, List.append_nil]
  rw [List.filter_eq_self.mpr, List.filter_eq_nil_iff.mpr, List.append_nil]
  · intro l hl
    obtain ⟨e, _, rfl⟩ := List.mem_map.mp hl
    rw [e6 e]; simp
  · intro l hl
    obtain ⟨a, _, rfl⟩ := List.mem_map.mp hl
    exact e7 a p

theorem allowed_lines_controlDocument (k1 k2 p : Bytes) (addrs : List Bytes) (allowed : Bytes)
    (ka : Int) (h1 : 10 ∉ k1) (h2 : 10 ∉ k2) (hp : 10 ∉ p) (ha : ∀ a ∈ addrs, 10 ∉ a)
    (hal : 10 ∉ allowed) :
    linesWith (B "allowed_ip=") (controlDocument k1 k2 p addrs allowed ka) =
      (Split 44 allowed).map (fun e => B "allowed_ip=" ++ e) := by
  rw [linesWith_controlDocument _ k1 k2 p addrs allowed ka (by decide) h1 h2 hp ha hal]
  have e1 := isPrefixOf_append_false (B "allowed_ip=") (B "private_key=") k1 0 (by decide)
    (by decide) (by decide)
  have e2 := isPrefixOf_false (B "allowed_ip=") (B "listen_port=0") 0 (by decide) (by decide)
  have e3 := isPrefixOf_false (B "allowed_ip=") (B "replace_peers=true") 0 (by decide) (by decide)
  have e4 := isPrefixOf_append_false (B "allowed_ip=") (B "public_key=") k2 0 (by decide)
    (by decide) (by decide)
  have e5 : ∀ x, (B "allowed_ip=").isPrefixOf (B "persistent_keepalive_interval=" ++ x) = false :=
    fun x => isPrefixOf_append_false _ _ x 0 (by decide) (by decide) (by decide)
  have e6 : ∀ x y, (B "allowed_ip=").isPrefixOf (B "endpoint=" ++ x ++ B ":" ++ y) = false := by
    intro x y
    rw [List.append_assoc, List.append_assoc]
    exact isPrefixOf_append_false _ _ _ 0 (by decide) (by decide) (by decide)
  have e7 : ∀ x, (B "allowed_ip=").isPrefixOf (B "allowed_ip=" ++ x) = true :=
    fun x => isPrefixOf_append_self _ _
  simp only [List.filter_append, List.filter_cons, List.filter_nil, e1, e2, e3, e4, e5,
    Bool.false_eq_true, if_false, List.nil_append, List.append_nil]
  rw [List.filter_eq_nil_iff.mpr, List.filter_eq_self.mpr, List.nil_append]
  · intro l hl
    obtain ⟨e, _, rfl⟩ := List.mem_map.mp hl
    exact e7 e
  · intro l hl
    obtain ⟨a, _, rfl⟩ := List.mem_map.mp hl
    rw [e6 a p]; simp

/-! ## Endpoint and allowed-IP lines -/

theorem endpoint_lines_counterexample :
    (withAllowedIPs (B "10.0.0.0/8\nendpoint=203.0.113.9:1")).Interface.PrivateKey =
        stdEncode sampleKey ∧
      (withAllowedIPs (B "10.0.0.0/8\nendpoint=203.0.113.9:1")).Peer.PublicKey =
        stdEncode samplePeerKey ∧
      SplitHostPort (withAllowedIPs (B "10.0.0.0/8\nendpoint=203.0.113.9:1")).Peer.Endpoint =
        .ok (B "vpn.example.com", B "51820") ∧
      sampleResolver (B "vpn.example.com") = .ok [B "192.0.2.1", B "2001:db8::1"] ∧
      (UAPI sampleResolver (withAllowedIPs (B "10.0.0.0/8\nendpoint=203.0.113.9:1"))).2 = .ok () ∧
      linesWith (B "endpoint=")
          (UAPI sampleResolver (withAllowedIPs (B "10.0.0.0/8\nendpoint=203.0.113.9:1"))).1 =
        [B "endpoint=192.0.2.1:51820", B "endpoint=2001:db8::1:51820",
          B "endpoint=203.0.113.9:1"] := by
  decide

/-- C5 (amended): for every configuration with valid keys whose endpoint
splits into host `h` and port `p`, and every resolver answer `addrs` for `h`,
if neither the port, nor an address, nor `AllowedIPs` contains a line feed,
then the lines of the document starting with `endpoint=` are exactly
`endpoint=<a>:<p>` for the addresses `a` in resolver order, as many as there
are addresses, and `endpoint=<x>:<p>` is such a line only for an `x` the
resolver returned. -/
theorem endpoint_fanout (lookup : Resolver) (wc : WireGuardConfig) (priv pub h p : Bytes)
    (addrs : List Bytes) (hpriv : priv.length = 32) (hprivb : IsBytes priv)
    (hpub : pub.length = 32) (hpubb : IsBytes pub)
    (hk1 : wc.Interface.PrivateKey = stdEncode priv) (hk2 : wc.Peer.PublicKey = stdEncode pub)
    (hsplit : SplitHostPort wc.Peer.Endpoint = .ok (h, p)) (hlook : lookup h = .ok addrs)
    (hp : 10 ∉ p) (ha : ∀ a ∈ addrs, 10 ∉ a) (hal : 10 ∉ wc.Peer.AllowedIPs) :
    linesWith (B "endpoint=") (UAPI lookup wc).1 =
        addrs.map (fun a => B "endpoint=" ++ a ++ B ":" ++ p) ∧
      (linesWith (B "endpoint=") (UAPI lookup wc).1).length = addrs.length ∧
      ∀ x, B "endpoint=" ++ x ++ B ":" ++ p ∈ linesWith (B "endpoint=") (UAPI lookup wc).1 →
        x ∈ addrs := by
  have h1 : key2hex wc.Interface.PrivateKey = .ok (EncodeToString priv) := by
    rw [hk1]; exact key2hex_of_stdEncode priv hpriv hprivb
  have h2 : key2hex wc.Peer.PublicKey = .ok (EncodeToString pub) := by
    rw [hk2]; exact key2hex_of_stdEncode pub hpub hpubb
  have hl : linesWith (B "endpoint=") (UAPI lookup wc).1 =
      addrs.map (fun a => B "endpoint=" ++ a ++ B ":" ++ p) := by
    rw [UAPI_of_ok lookup wc _ _ h p addrs h1 h2 hsplit hlook]
    exact endpoint_lines_controlDocument _ _ p addrs _ _ (EncodeToString_no_lf _)
      (EncodeToString_no_lf _) hp ha hal
  refine ⟨hl, by rw [hl, List.length_map], ?_⟩
  intro x hx
  rw [hl] at hx
  obtain ⟨a, hmem, heq⟩ := List.mem_map.mp hx
  have : a = x := by
    have := List.append_cancel_right (List.append_cancel_right heq)
    exact List.append_cancel_left this
  exact this ▸ hmem

theorem endpoint_fanout_witness :
    linesWith (B "endpoint=") (UAPI sampleResolver sampleConfig).1 =
      [B "192.0.2.1", B "2001:db8::1"].map (fun a => B "endpoint=" ++ a ++ B ":" ++ B "51820") :=
  (endpoint_fanout sampleResolver sampleConfig sampleKey samplePeerKey (B "vpn.example.com")
    (B "51820") [B "192.0.2.1", B "2001:db8::1"] (by decide) (by decide) (by decide) (by decide)
    rfl rfl (by decide) rfl (by decide) (by decide) (by decide)).1

theorem allowed_lines_of_ok (lookup : Resolver) (wc : WireGuardConfig) (h p : Bytes)
    (addrs : List Bytes) (hok : (UAPI lookup wc).2 = .ok ())
    (hsplit : SplitHostPort wc.Peer.Endpoint = .ok (h, p)) (hlook : lookup h = .ok addrs)
    (hp : 10 ∉ p) (ha : ∀ a ∈ addrs, 10 ∉ a) (hal : 10 ∉ wc.Peer.AllowedIPs) :
    linesWith (B "allowed_ip=") (UAPI lookup wc).1 =
      (Split 44 wc.Peer.AllowedIPs).map (fun e => B "allowed_ip=" ++ e) := by
  obtain ⟨k1, k2, h', p', addrs', hk1, hk2, hs, hl, hdoc⟩ :=
    UAPI_ok_inv lookup wc (UAPI lookup wc).1 (Prod.ext rfl hok)
  rw [hdoc]
  rw [hsplit] at hs
  obtain ⟨rfl, rfl⟩ := Prod.mk.inj (Except.ok.inj hs)
  rw [hlook] at hl
  obtain rfl := Except.ok.inj hl
  exact allowed_lines_controlDocument k1 k2 p addrs _ _ (key2hex_ok_no_lf _ _ hk1)
    (key2hex_ok_no_lf _ _ hk2) hp ha hal

theorem allowed_lines_counterexample :
    (UAPI sampleResolver (withAllowedIPs (B "10.0.0.0/8\n192.168.1.0/24"))).2 = .ok () ∧
      Split 44 (B "10.0.0.0/8\n192.168.1.0/24") = [B "10.0.0.0/8\n192.168.1.0/24"] ∧
      linesWith (B "allowed_ip=")
          (UAPI sampleResolver (withAllowedIPs (B "10.0.0.0/8\n192.168.1.0/24"))).1 =
        [B "allowed_ip=10.0.0.0/8"] ∧
      linesWith (B "allowed_ip=")
          (UAPI sampleResolver (withAllowedIPs (B "10.0.0.0/8\n192.168.1.0/24"))).1 ≠
        (Split 44 (B "10.0.0.0/8\n192.168.1.0/24")).map (fun e => B "allowed_ip=" ++ e) := by
  decide

/-- C6 (amended): on a successful call in which neither the port, nor a
resolved address, nor `AllowedIPs` contains a line feed, the lines of the
document starting with `allowed_ip=` are, in order, exactly `allowed_ip=`
followed by each piece of `AllowedIPs` split on `,`, the pieces unmodified:
joining them with `,` gives `AllowedIPs` back. For
`10.0.0.0/8,192.168.1.0/24` they are `allowed_ip=10.0.0.0/8` and
`allowed_ip=192.168.1.0/24`, in that order. -/
theorem allowed_ip_lines (lookup : Resolver) (wc : WireGuardConfig) (h p : Bytes)
    (addrs : List Bytes) (hok : (UAPI lookup wc).2 = .ok ())
    (hsplit : SplitHostPort wc.Peer.Endpoint = .ok (h, p)) (hlook : lookup h = .ok addrs)
    (hp : 10 ∉ p) (ha : ∀ a ∈ addrs, 10 ∉ a) (hal : 10 ∉ wc.Peer.AllowedIPs) :
    linesWith (B "allowed_ip=") (UAPI lookup wc).1 =
        (Split 44 wc.Peer.AllowedIPs).map (fun e => B "allowed_ip=" ++ e) ∧
      Join (B ",") (Split 44 wc.Peer.AllowedIPs) = wc.Peer.AllowedIPs ∧
      (wc.Peer.AllowedIPs = B "10.0.0.0/8,192.168.1.0/24" →
        linesWith (B "allowed_ip=") (UAPI lookup wc).1 =
          [B "allowed_ip=10.0.0.0/8", B "allowed_ip=192.168.1.0/24"]) := by
  have hl := allowed_lines_of_ok lookup wc h p addrs hok hsplit hlook hp ha hal
  refine ⟨hl, Join_Split 44 _, ?_⟩
  intro heq
  rw [hl, heq]
  decide

theorem allowed_ip_lines_witness :
    linesWith (B "allowed_ip=") (UAPI sampleResolver sampleConfig).1 =
      [B "allowed_ip=10.0.0.0/8", B "allowed_ip=192.168.1.0/24"] :=
  (allowed_ip_lines sampleResolver sampleConfig
    (B "vpn.example.com") (B "51820") [B "192.0.2.1", B "2001:db8::1"] (by decide) (by decide)
    rfl (by decide) (by decide) (by decide)).2.2 rfl

theorem allowed_count_counterexample :
    (UAPI sampleResolver (withAllowedIPs (B "10.0.0.0/8\nallowed_ip=0.0.0.0/0"))).2 = .ok () ∧
      (B "10.0.0.0/8\nallowed_ip=0.0.0.0/0").count 44 = 0 ∧
      linesWith (B "allowed_ip=")
          (UAPI sampleResolver (withAllowedIPs (B "10.0.0.0/8\nallowed_ip=0.0.0.0/0"))).1 =
        [B "allowed_ip=10.0.0.0/8", B "allowed_ip=0.0.0.0/0"] := by
  decide

/-- C10 (amended): on a successful call in which neither the port, nor a
resolved address, nor `AllowedIPs` contains a line feed, the number of lines
starting with `allowed_ip=` is one more than the number of `,` in
`AllowedIPs`, so never zero; an empty `AllowedIPs` gives the single line
`allowed_ip=`, and a leading, trailing or doubled comma gives a line
`allowed_ip=` with an empty value at the first, the last, or the position
after the pieces before the doubled comma. -/
theorem allowed_ip_count (lookup : Resolver) (wc : WireGuardConfig) (h p : Bytes)
    (addrs : List Bytes) (hok : (UAPI lookup wc).2 = .ok ())
    (hsplit : SplitHostPort wc.Peer.Endpoint = .ok (h, p)) (hlook : lookup h = .ok addrs)
    (hp : 10 ∉ p) (ha : ∀ a ∈ addrs, 10 ∉ a) (hal : 10 ∉ wc.Peer.AllowedIPs) :
    (linesWith (B "allowed_ip=") (UAPI lookup wc).1).length = wc.Peer.AllowedIPs.count 44 + 1 ∧
      linesWith (B "allowed_ip=") (UAPI lookup wc).1 ≠ [] ∧
      (wc.Peer.AllowedIPs = [] → linesWith (B "allowed_ip=") (UAPI lookup wc).1 = [B "allowed_ip="]) ∧
      (∀ t, wc.Peer.AllowedIPs = 44 :: t →
        (linesWith (B "allowed_ip=") (UAPI lookup wc).1).head? = some (B "allowed_ip=")) ∧
      (∀ s, wc.Peer.AllowedIPs = s ++ [44] →
        (linesWith (B "allowed_ip=") (UAPI lookup wc).1).getLast? = some (B "allowed_ip=")) ∧
      (∀ s t, wc.Peer.AllowedIPs = s ++ 44 :: 44 :: t →
        (linesWith (B "allowed_ip=") (UAPI lookup wc).1)[s.count 44 + 1]? = some (B "allowed_ip=")) := by
  have hl := allowed_lines_of_ok lookup wc h p addrs hok hsplit hlook hp ha hal
  have hB : B "allowed_ip=" ++ [] = B "allowed_ip=" := List.append_nil _
  refine ⟨by rw [hl, List.length_map, Split_length], ?_, ?_, ?_, ?_, ?_⟩
  · rw [hl]
    simpa using Split_ne_nil 44 wc.Peer.AllowedIPs
  · intro he
    rw [hl, he]
    simp [Split]
  · intro t he
    rw [hl, he]
    simp [Split]
  · intro s he
    rw [hl, he, Split_append]
    simp [Split]
  · intro s t he
    rw [hl, he, Split_append, List.map_append,
      List.getElem?_append_right (by rw [List.length_map, Split_length])]
    simp [Split, Split_length]

theorem allowed_ip_count_witness :
    (linesWith (B "allowed_ip=") (UAPI sampleResolver sampleConfig).1).length =
      sampleConfig.Peer.AllowedIPs.count 44 + 1 :=
  (allowed_ip_count sampleResolver sampleConfig
    (B "vpn.example.com") (B "51820") [B "192.0.2.1", B "2001:db8::1"] (by decide) (by decide)
    rfl (by decide) (by decide) (by decide)).1

/-! ## Failing calls -/

theorem unlines_append (a b : List Bytes) : unlines (a ++ b) = unlines a ++ unlines b := by
  simp [unlines]

theorem unlines_cons_ne_nil (l : Bytes) (ls : List Bytes) : unlines (l :: ls) ≠ [] := by
  simp [unlines, B_newline]

theorem properPrefix_unlines (a b : List Bytes) (hb : b ≠ []) :
    unlines a <+: unlines (a ++ b) ∧ unlines a ≠ unlines (a ++ b) := by
  rw [unlines_append]
  refine ⟨List.prefix_append _ _, ?_⟩
  intro h
  have h2 : unlines b = [] := by
    have := congrArg List.length h
    rw [List.length_append] at this
    exact List.length_eq_zero.mp (by omega)
  cases b with
  | nil => exact hb rfl
  | cons l ls => exact unlines_cons_ne_nil l ls h2

theorem controlDocument_split3 (k1 k2 p : Bytes) (addrs : List Bytes) (allowed : Bytes) (ka : Int) :
    ∃ rest, rest ≠ [] ∧ controlDocument k1 k2 p addrs allowed ka =
      unlines ([B "private_key=" ++ k1, B "listen_port=0", B "replace_peers=true"] ++ rest) :=
  ⟨[B "public_key=" ++ k2] ++ addrs.map (fun a => B "endpoint=" ++ a ++ B ":" ++ p) ++
      (Split 44 allowed).map (fun e => B "allowed_ip=" ++ e) ++
      [B "persistent_keepalive_interval=" ++ formatInt ka], by simp,
    by simp [controlDocument]⟩

theorem controlDocument_split4 (k1 k2 p : Bytes) (addrs : List Bytes) (allowed : Bytes) (ka : Int) :
    ∃ rest, rest ≠ [] ∧ controlDocument k1 k2 p addrs allowed ka =
      unlines ([B "private_key=" ++ k1, B "listen_port=0", B "replace_peers=true",
        B "public_key=" ++ k2] ++ rest) :=
  ⟨addrs.map (fun a => B "endpoint=" ++ a ++ B ":" ++ p) ++
      (Split 44 allowed).map (fun e => B "allowed_ip=" ++ e) ++
      [B "persistent_keepalive_interval=" ++ formatInt ka], by simp,
    by simp [controlDocument]⟩

theorem head_lines_filter (pre k1 k2 : Bytes) (h1 : 10 ∉ k1) (h2 : 10 ∉ k2)
    (hpre : pre = B "endpoint=" ∨ pre = B "allowed_ip=" ∨
      pre = B "persistent_keepalive_interval=") :
    linesWith pre [] = [] ∧
      linesWith pre (unlines [B "private_key=" ++ k1, B "listen_port=0",
        B "replace_peers=true"]) = [] ∧
      linesWith pre (unlines [B "private_key=" ++ k1, B "listen_port=0", B "replace_peers=true",
        B "public_key=" ++ k2]) = [] := by
  have c1 : 10 ∉ B "private_key=" := by decide
  have c2 : 10 ∉ B "listen_port=0" := by decide
  have c3 : 10 ∉ B "replace_peers=true" := by decide
  have c4 : 10 ∉ B "public_key=" := by decide
  have hne : pre ≠ [] := by rcases hpre with rfl | rfl | rfl <;> decide
  have e1 : pre.isPrefixOf (B "private_key=" ++ k1) = false := by
    rcases hpre with rfl | rfl | rfl
    · exact isPrefixOf_append_false _ _ _ 0 (by decide) (by decide) (by decide)
    · exact isPrefixOf_append_false _ _ _ 0 (by decide) (by decide) (by decide)
    · exact isPrefixOf_append_false _ _ _ 1 (by decide) (by decide) (by decide)
  have e2 : pre.isPrefixOf (B "listen_port=0") = false := by
    rcases hpre with rfl | rfl | rfl <;> decide
  have e3 : pre.isPrefixOf (B "replace_peers=true") = false := by
    rcases hpre with rfl | rfl | rfl <;> decide
  have e4 : pre.isPrefixOf (B "public_key=" ++ k2) = false := by
    rcases hpre with rfl | rfl | rfl
    · exact isPrefixOf_append_false _ _ _ 0 (by decide) (by decide) (by decide)
    · exact isPrefixOf_append_false _ _ _ 0 (by decide) (by decide) (by decide)
    · exact isPrefixOf_append_false _ _ _ 1 (by decide) (by decide) (by decide)
  refine ⟨?_, ?_, ?_⟩
  · cases pre with
    | nil => exact absurd rfl hne
    | cons a as => simp [linesWith, lines, Split, List.isPrefixOf]
  · rw [linesWith_unlines pre _ hne (by simp [c1, c2, c3, h1])]
    simp [e1, e2, e3]
  · rw [linesWith_unlines pre _ hne (by simp [c1, c2, c3, c4, h1, h2])]
    simp [e1, e2, e3, e4]

/-- C9: whenever `UAPI` returns an error, what it has written is determined by
the failing step: nothing if the private key fails to decode; the three lines
`private_key=<hex>`, `listen_port=0`, `replace_peers=true` if the public key
fails to decode; those and `public_key=<hex>` if the endpoint split or the
resolution fails. In each case the output is a proper prefix of the document
of every successful call with the same keys decoded so far, and no line of it
starts with `endpoint=`, `allowed_ip=` or `persistent_keepalive_interval=`. -/
theorem UAPI_error_written (lookup : Resolver) (wc : WireGuardConfig) (e : GoError)
    (herr : (UAPI lookup wc).2 = .error e) :
    ((key2hex wc.Interface.PrivateKey = .error e ∧ (UAPI lookup wc).1 = [] ∧
        ∀ (lookup2 : Resolver) (wc2 : WireGuardConfig), (UAPI lookup2 wc2).2 = .ok () →
          (UAPI lookup wc).1 <+: (UAPI lookup2 wc2).1 ∧
            (UAPI lookup wc).1 ≠ (UAPI lookup2 wc2).1) ∨
      (∃ k1, key2hex wc.Interface.PrivateKey = .ok k1 ∧ key2hex wc.Peer.PublicKey = .error e ∧
        (UAPI lookup wc).1 =
          unlines [B "private_key=" ++ k1, B "listen_port=0", B "replace_peers=true"] ∧
        ∀ (lookup2 : Resolver) (wc2 : WireGuardConfig), (UAPI lookup2 wc2).2 = .ok () →
          wc2.Interface.PrivateKey = wc.Interface.PrivateKey →
          (UAPI lookup wc).1 <+: (UAPI lookup2 wc2).1 ∧
            (UAPI lookup wc).1 ≠ (UAPI lookup2 wc2).1) ∨
      (∃ k1 k2, key2hex wc.Interface.PrivateKey = .ok k1 ∧ key2hex wc.Peer.PublicKey = .ok k2 ∧
        (SplitHostPort wc.Peer.Endpoint = .error e ∨
          ∃ host port, SplitHostPort wc.Peer.Endpoint = .ok (host, port) ∧
            lookup host = .error e) ∧
        (UAPI lookup wc).1 =
          unlines [B "private_key=" ++ k1, B "listen_port=0", B "replace_peers=true",
            B "public_key=" ++ k2] ∧
        ∀ (lookup2 : Resolver) (wc2 : WireGuardConfig), (UAPI lookup2 wc2).2 = .ok () →
          wc2.Interface.PrivateKey = wc.Interface.PrivateKey →
          wc2.Peer.PublicKey = wc.Peer.PublicKey →
          (UAPI lookup wc).1 <+: (UAPI lookup2 wc2).1 ∧
            (UAPI lookup wc).1 ≠ (UAPI lookup2 wc2).1)) ∧
      linesWith (B "endpoint=") (UAPI lookup wc).1 = [] ∧
      linesWith (B "allowed_ip=") (UAPI lookup wc).1 = [] ∧
      linesWith (B "persistent_keepalive_interval=") (UAPI lookup wc).1 = [] := by
  have hsucc : ∀ (lookup2 : Resolver) (wc2 : WireGuardConfig), (UAPI lookup2 wc2).2 = .ok () →
      ∃ k1 k2 p addrs, key2hex wc2.Interface.PrivateKey = .ok k1 ∧
        key2hex wc2.Peer.PublicKey = .ok k2 ∧
        (UAPI lookup2 wc2).1 =
          controlDocument k1 k2 p addrs wc2.Peer.AllowedIPs wc2.Peer.PersistentKeepalive := by
    intro lookup2 wc2 h2
    obtain ⟨k1, k2, _, p, addrs, a1, a2, _, _, a5⟩ :=
      UAPI_ok_inv lookup2 wc2 (UAPI lookup2 wc2).1 (Prod.ext rfl h2)
    exact ⟨k1, k2, p, addrs, a1, a2, a5⟩
  cases hk1 : key2hex wc.Interface.PrivateKey with
  | panic => simp [UAPI, hk1] at herr
  | diverge => simp [UAPI, hk1] at herr
  | error e1 =>
    have hw : (UAPI lookup wc).1 = [] := by simp [UAPI, hk1]
    have he : e1 = e := by simpa [UAPI, hk1] using herr
    subst he
    rw [hw]
    refine ⟨Or.inl ⟨rfl, rfl, ?_⟩, ?_⟩
    · intro lookup2 wc2 h2
      obtain ⟨k1, k2, p, addrs, _, _, hdoc⟩ := hsucc lookup2 wc2 h2
      obtain ⟨rest, _, hrest⟩ := controlDocument_split3 k1 k2 p addrs wc2.Peer.AllowedIPs
        wc2.Peer.PersistentKeepalive
      rw [hdoc, hrest]
      exact ⟨List.nil_prefix, (unlines_cons_ne_nil _ _).symm⟩
    · exact ⟨(head_lines_filter _ [] [] (by simp) (by simp) (Or.inl rfl)).1,
        (head_lines_filter _ [] [] (by simp) (by simp) (Or.inr (Or.inl rfl))).1,
        (head_lines_filter _ [] [] (by simp) (by simp) (Or.inr (Or.inr rfl))).1⟩
  | ok k1 =>
    have n1 := key2hex_ok_no_lf _ _ hk1
    cases hk2 : key2hex wc.Peer.PublicKey with
    | panic => simp [UAPI, hk1, hk2] at herr
    | diverge => simp [UAPI, hk1, hk2] at herr
    | error e2 =>
      have hw : (UAPI lookup wc).1 =
          unlines [B "private_key=" ++ k1, B "listen_port=0", B "replace_peers=true"] := by
        simp [UAPI, hk1, hk2, unlines]
      have he : e2 = e := by simpa [UAPI, hk1, hk2] using herr
      subst he
      rw [hw]
      refine ⟨Or.inr (Or.inl ⟨k1, rfl, rfl, rfl, ?_⟩), ?_⟩
      · intro lookup2 wc2 h2 hsame
        obtain ⟨k1', k2', p, addrs, a1, _, hdoc⟩ := hsucc lookup2 wc2 h2
        rw [hsame, hk1] at a1
        obtain rfl := Result.ok.inj a1
        obtain ⟨rest, hne, hrest⟩ := controlDocument_split3 k1 k2' p addrs wc2.Peer.AllowedIPs
          wc2.Peer.PersistentKeepalive
        rw [hdoc, hrest]
        exact properPrefix_unlines _ rest hne
      · exact ⟨(head_lines_filter _ k1 [] n1 (by simp) (Or.inl rfl)).2.1,
          (head_lines_filter _ k1 [] n1 (by simp) (Or.inr (Or.inl rfl))).2.1,
          (head_lines_filter _ k1 [] n1 (by simp) (Or.inr (Or.inr rfl))).2.1⟩
    | ok k2 =>
      have n2 := key2hex_ok_no_lf _ _ hk2
      have hpre : ∀ (lookup2 : Resolver) (wc2 : WireGuardConfig), (UAPI lookup2 wc2).2 = .ok () →
          wc2.Interface.PrivateKey = wc.Interface.PrivateKey →
          wc2.Peer.PublicKey = wc.Peer.PublicKey →
          unlines [B "private_key=" ++ k1, B "listen_port=0", B "replace_peers=true",
              B "public_key=" ++ k2] <+: (UAPI lookup2 wc2).1 ∧
            unlines [B "private_key=" ++ k1, B "listen_port=0", B "replace_peers=true",
              B "public_key=" ++ k2] ≠ (UAPI lookup2 wc2).1 := by
        intro lookup2 wc2 h2 hs1 hs2
        obtain ⟨k1', k2', p, addrs, a1, a2, hdoc⟩ := hsucc lookup2 wc2 h2
        rw [hs1, hk1] at a1
        rw [hs2, hk2] at a2
        obtain rfl := Result.ok.inj a1
        obtain rfl := Result.ok.inj a2
        obtain ⟨rest, hne, hrest⟩ := controlDocument_split4 k1 k2 p addrs wc2.Peer.AllowedIPs
          wc2.Peer.PersistentKeepalive
        rw [hdoc, hrest]
        exact properPrefix_unlines _ rest hne
      have hfil := fun pre hp => (head_lines_filter pre k1 k2 n1 n2 hp).2.2
      cases hs : SplitHostPort wc.Peer.Endpoint with
      | error e3 =>
        have hw : (UAPI lookup wc).1 = unlines [B "private_key=" ++ k1, B "listen_port=0",
            B "replace_peers=true", B "public_key=" ++ k2] := by
          simp [UAPI, hk1, hk2, hs, unlines]
        have he : e3 = e := by simpa [UAPI, hk1, hk2, hs] using herr
        subst he
        rw [hw]
        exact ⟨Or.inr (Or.inr ⟨k1, k2, rfl, rfl, Or.inl rfl, rfl, hpre⟩),
          hfil _ (Or.inl rfl), hfil _ (Or.inr (Or.inl rfl)), hfil _ (Or.inr (Or.inr rfl))⟩
      | ok hp =>
        obtain ⟨host, port⟩ := hp
        cases hl : lookup host with
        | ok addrs =>
          have := UAPI_of_ok lookup wc k1 k2 host port addrs hk1 hk2 hs hl
          rw [this] at herr
          cases herr
        | error e4 =>
          have hw : (UAPI lookup wc).1 = unlines [B "private_key=" ++ k1, B "listen_port=0",
              B "replace_peers=true", B "public_key=" ++ k2] := by
            simp [UAPI, hk1, hk2, hs, hl, unlines]
          have he : e4 = e := by simpa [UAPI, hk1, hk2, hs, hl] using herr
          subst he
          rw [hw]
          exact ⟨Or.inr (Or.inr ⟨k1, k2, rfl, rfl, Or.inr ⟨host, port, rfl, hl⟩, rfl, hpre⟩),
            hfil _ (Or.inl rfl), hfil _ (Or.inr (Or.inl rfl)), hfil _ (Or.inr (Or.inr rfl))⟩

theorem UAPI_error_written_witness :
    (UAPI sampleResolver (withPublicKey (B "not a key"))).2 = .error (.CorruptInputError 3) ∧
      linesWith (B "endpoint=") (UAPI sampleResolver (withPublicKey (B "not a key"))).1 = [] :=
  ⟨by decide,
    (UAPI_error_written sampleResolver (withPublicKey (B "not a key")) (.CorruptInputError 3)
      (by decide)).2.1⟩

/-! ## Panics of `key2hex` -/

theorem key2hex_short_panics (data : Bytes) (h : data.length < 4) : key2hex data = .panic := by
  have h0 : DecodedLen data.length = 0 := by
    unfold DecodedLen
    rw [Nat.div_eq_of_lt h]
  unfold key2hex
  simp [h0]

/-- C8 (the code at the failing inputs): `key2hex` panics on the empty string
and on every string of one to three bytes (`make` with length `-1`), and on 44
alphabet symbols without padding (`dst[2]` is out of range in the last
quantum). -/
theorem key2hex_panics :
    key2hex (B "") = .panic ∧ (∀ data : Bytes, data.length < 4 → key2hex data = .panic) ∧
      key2hex (B "AAAAAAAAAAAAAAAAAAAAAAAAAAAAAAAAAAAAAAAAAAAA") = .panic :=
  ⟨by decide, key2hex_short_panics, by decide⟩

/-- C7 (the code at the failing input): with an empty private key, or any
private key shorter than four bytes, `UAPI` neither returns an error nor
returns nil; it panics before writing anything, although `key2hex` has
returned no error. -/
theorem UAPI_empty_key_panics :
    UAPI sampleResolver (withPrivateKey (B "")) = ([], .panic) ∧
      (∀ e, key2hex (withPrivateKey (B "")).Interface.PrivateKey ≠ .error e) ∧
      (∀ e, (UAPI sampleResolver (withPrivateKey (B ""))).2 ≠ .error e) ∧
      (UAPI sampleResolver (withPrivateKey (B ""))).2 ≠ .ok () ∧
      ∀ (lookup : Resolver) (wc : WireGuardConfig), wc.Interface.PrivateKey.length < 4 →
        UAPI lookup wc = ([], .panic) := by
  have h : UAPI sampleResolver (withPrivateKey (B "")) = ([], .panic) := by decide
  have hk : key2hex (withPrivateKey (B "")).Interface.PrivateKey = .panic := by decide
  refine ⟨h, ?_, ?_, ?_, ?_⟩
  · intro e he; rw [hk] at he; cases he
  · intro e he; rw [h] at he; cases he
  · intro he; rw [h] at he; cases he
  · intro lookup wc hlen
    simp [UAPI, key2hex_short_panics _ hlen]

/-! ## `key2hex` always ends -/

theorem quantumLoop_pos_ge (L : Nat) : ∀ (rest : Bytes) (si j : Nat) (dbuf : List Nat),
    si ≤ (quantumLoop L rest si j dbuf).pos := by
  intro rest
  induction rest with
  | nil =>
    intro si j dbuf
    unfold quantumLoop
    split_ifs <;> simp [Scan.pos]
  | cons c tl ih =>
    intro si j dbuf
    unfold quantumLoop
    simp only
    split_ifs
    · simp [Scan.pos]
    · exact Nat.le_of_succ_le (ih _ _ _)
    · exact Nat.le_of_succ_le (ih _ _ _)
    · simp [Scan.pos]
    · simp [Scan.pos]
    · split
      · simp [Scan.pos]; omega
      · split_ifs
        · simp [Scan.pos]; omega
        · unfold finishPadding; simp only; split_ifs <;> simp [Scan.pos] <;> omega
    · unfold finishPadding; simp only; split_ifs <;> simp [Scan.pos] <;> omega

theorem quantumLoop_pos_gt (L c : Nat) (tl : Bytes) (si j : Nat) (dbuf : List Nat) (hj : j < 4) :
    si < (quantumLoop L (c :: tl) si j dbuf).pos := by
  unfold quantumLoop
  simp only
  have h4 : ¬ 4 ≤ j := by omega
  simp only [h4, if_false]
  split_ifs
  · exact quantumLoop_pos_ge L tl _ _ _
  · exact quantumLoop_pos_ge L tl _ _ _
  · simp [Scan.pos]
  · simp [Scan.pos]
  · split
    · simp [Scan.pos]; omega
    · split_ifs
      · simp [Scan.pos]; omega
      · unfold finishPadding; simp only; split_ifs <;> simp [Scan.pos] <;> omega
  · unfold finishPadding; simp only; split_ifs <;> simp [Scan.pos] <;> omega

theorem decodeQuantum_pos (src : Bytes) (st st1 : DecState) (err : Option GoError)
    (h : decodeQuantum src st = some (st1, err)) :
    st1.si = (quantumLoop src.length (src.drop st.si) st.si 0 [0, 0, 0, 0]).pos := by
  unfold decodeQuantum at h
  split_ifs at h
  split at h
  · next si e heq =>
    simp only [Option.some.injEq, Prod.mk.injEq] at h
    rw [heq, ← h.1]; rfl
  · next si dbuf dlen e heq =>
    rw [heq]
    cases hw : writeQuantum st.dst st.n dbuf dlen with
    | none => rw [hw] at h; simp at h
    | some d =>
      rw [hw] at h
      simp only [Option.map_some', Option.some.injEq, Prod.mk.injEq] at h
      rw [← h.1]; rfl

theorem decodeQuantum_si_lt (src : Bytes) (st st1 : DecState) (err : Option GoError)
    (h : decodeQuantum src st = some (st1, err)) (hsi : st.si < src.length) :
    st.si < st1.si := by
  rw [decodeQuantum_pos src st st1 err h]
  cases hd : src.drop st.si with
  | nil =>
    have := congrArg List.length hd
    simp at this; omega
  | cons c tl => exact quantumLoop_pos_gt _ c tl _ 0 _ (by omega)

theorem slowStep_total (src : Bytes) (st : DecState) (k : DecState → Loop)
    (hsi : st.si < src.length) (hk : ∀ st1, st.si < st1.si → k st1 ≠ .diverge) :
    slowStep src st k ≠ .diverge := by
  unfold slowStep
  cases hq : decodeQuantum src st with
  | none => simp
  | some r =>
    obtain ⟨st1, err⟩ := r
    cases err with
    | some e => simp
    | none => exact hk st1 (decodeQuantum_si_lt src st st1 none hq hsi)

theorem loop64_total (src : Bytes) : ∀ (fuel : Nat) (st : DecState),
    src.length - st.si < fuel → loop64 src fuel st ≠ .diverge := by
  intro fuel
  induction fuel with
  | zero => intro st h; omega
  | succ fuel ih =>
    intro st h
    unfold loop64
    split_ifs with hg
    · split
      · exact ih _ (by simp only; omega)
      · exact slowStep_total src st _ (by omega) fun st1 h1 => ih st1 (by omega)
    · simp

theorem loop32_total (src : Bytes) : ∀ (fuel : Nat) (st : DecState),
    src.length - st.si < fuel → loop32 src fuel st ≠ .diverge := by
  intro fuel
  induction fuel with
  | zero => intro st h; omega
  | succ fuel ih =>
    intro st h
    unfold loop32
    split_ifs with hg
    · split
      · exact ih _ (by simp only; omega)
      · exact slowStep_total src st _ (by omega) fun st1 h1 => ih st1 (by omega)
    · simp

theorem loopTail_total (src : Bytes) : ∀ (fuel : Nat) (st : DecState),
    src.length - st.si < fuel → loopTail src fuel st ≠ .diverge := by
  intro fuel
  induction fuel with
  | zero => intro st h; omega
  | succ fuel ih =>
    intro st h
    unfold loopTail
    split_ifs with hg
    · exact slowStep_total src st _ hg fun st1 h1 => ih st1 (by omega)
    · simp

theorem Decode_total (dst src : Bytes) : Decode dst src ≠ .diverge := by
  unfold Decode
  split_ifs
  · simp
  · have h64 := loop64_total src (src.length + 1) ⟨dst, 0, 0⟩ (by simp)
    cases h1 : loop64 src (src.length + 1) ⟨dst, 0, 0⟩ with
    | diverge => exact absurd h1 h64
    | panic => simp
    | fail st e => simp
    | next st1 =>
      simp only
      have h32 := loop32_total src (src.length + 1) st1 (by omega)
      cases h2 : loop32 src (src.length + 1) st1 with
      | diverge => exact absurd h2 h32
      | panic => simp
      | fail st e => simp
      | next st2 => exact loopTail_total src _ st2 (by omega)

/-- The fuel of the loop models is never used up: `key2hex` returns or
panics. -/
theorem key2hex_total (data : Bytes) : key2hex data ≠ .diverge := by
  unfold key2hex
  simp only
  split_ifs
  · simp
  · have := Decode_total (List.replicate ((DecodedLen data.length : Int) - 1).toNat 0) data
    split <;> simp_all

/-! ## What the decoder accepts -/

theorem decodeMap_lt (c : Nat) : decodeMap c < 256 := by
  unfold decodeMap
  simp only
  split_ifs <;> omega

theorem isAlphabet_of_decodeMap (c : Nat) (h : decodeMap c ≠ 0xff) : isAlphabet c = true := by
  unfold decodeMap at h
  simp only at h
  split_ifs at h with hi
  · have : c ∈ encodeStd := List.indexOf_lt_length.mp (by simpa [encodeStd, B] using hi)
    simpa [isAlphabet] using this
  · exact absurd rfl h

theorem isLineBreak_of_isAlphabet (c : Nat) (h : isAlphabet c = true) : isLineBreak c = false := by
  by_cases h10 : c = 10
  · subst h10; revert h; decide
  · by_cases h13 : c = 13
    · subst h13; revert h; decide
    · simp [isLineBreak, h10, h13]

theorem strip_cons_lineBreak (c : Nat) (l : Bytes) (h : c = 10 ∨ c = 13) :
    stripLineBreaks (c :: l) = stripLineBreaks l := by
  have hb : isLineBreak c = true := by simpa [isLineBreak] using h
  simp only [stripLineBreaks, List.filter_cons, hb]
  simp

theorem strip_cons_other (c : Nat) (l : Bytes) (h : ¬ (c = 10 ∨ c = 13)) :
    stripLineBreaks (c :: l) = c :: stripLineBreaks l := by
  have hb : isLineBreak c = false := by simpa [isLineBreak] using h
  simp only [stripLineBreaks, List.filter_cons, hb]
  simp

theorem strip_append (a b : Bytes) :
    stripLineBreaks (a ++ b) = stripLineBreaks a ++ stripLineBreaks b := by
  simp [stripLineBreaks]

theorem skipNewlines_spec : ∀ l : Bytes, skipNewlines l ≤ l.length ∧
    stripLineBreaks l = stripLineBreaks (l.drop (skipNewlines l)) := by
  intro l
  induction l with
  | nil => simp [skipNewlines]
  | cons c tl ih =>
    unfold skipNewlines
    split_ifs with h
    · refine ⟨by simp; exact ih.1, ?_⟩
      rw [strip_cons_lineBreak c tl h, List.drop_succ_cons]
      exact ih.2
    · simp

theorem finishPadding_ok (rest : Bytes) (si j : Nat) (dbuf : List Nat) :
    (∃ s1 e, finishPadding rest si j dbuf = .brk s1 dbuf j (some e)) ∨
      (finishPadding rest si j dbuf = .brk (si + rest.length) dbuf j none ∧
        stripLineBreaks rest = []) := by
  obtain ⟨hk, hs⟩ := skipNewlines_spec rest
  unfold finishPadding
  simp only
  split_ifs with h
  · exact Or.inl ⟨_, _, rfl⟩
  · right
    have hnil : rest.drop (skipNewlines rest) = [] := List.length_eq_zero.mp (by simpa using h)
    have hlen : rest.length = skipNewlines rest := by
      have := congrArg List.length hnil
      simp at this; omega
    rw [hs, hnil, hlen]
    exact ⟨rfl, rfl⟩

theorem ScanOK_cons_alphabet (c : Nat) (tl : Bytes) (si j : Nat) (r : Scan)
    (hc : isAlphabet c = true) (h : ScanOK tl (si + 1) (j + 1) r) : ScanOK (c :: tl) si j r := by
  have hnb : ¬ (c = 10 ∨ c = 13) := by
    simpa [isLineBreak] using isLineBreak_of_isAlphabet c hc
  cases r with
  | ret s1 err =>
    cases err with
    | none => exact absurd h.1 (by omega)
    | some e => trivial
  | brk s1 d dlen err =>
    cases err with
    | some e => trivial
    | none =>
      rcases h with ⟨hd, used, rem, htl, hsi, hlen, hall⟩ | ⟨h2, h4, hj, hsi, body, hs, hbl, hall⟩
      · refine Or.inl ⟨hd, c :: used, rem, by simp [htl], by simp; omega, ?_, ?_⟩
        · rw [strip_cons_other c used hnb]; simp; omega
        · rw [strip_cons_other c used hnb]
          intro x hx
          rcases List.mem_cons.mp hx with rfl | hx
          · exact hc
          · exact hall x hx
      · refine Or.inr ⟨h2, h4, by omega, by simp; omega, c :: body, ?_, by simp; omega, ?_⟩
        · rw [strip_cons_other c tl hnb, hs]; rfl
        · intro x hx
          rcases List.mem_cons.mp hx with rfl | hx
          · exact hc
          · exact hall x hx

theorem ScanOK_cons_lineBreak (c : Nat) (tl : Bytes) (si j : Nat) (r : Scan)
    (hc : c = 10 ∨ c = 13) (h : ScanOK tl (si + 1) j r) : ScanOK (c :: tl) si j r := by
  cases r with
  | ret s1 err =>
    cases err with
    | none =>
      exact ⟨h.1, by rw [strip_cons_lineBreak c tl hc]; exact h.2.1, by
        have := h.2.2; simp; omega⟩
    | some e => trivial
  | brk s1 d dlen err =>
    cases err with
    | some e => trivial
    | none =>
      rcases h with ⟨hd, used, rem, htl, hsi, hlen, hall⟩ | ⟨h2, h4, hj, hsi, body, hs, hbl, hall⟩
      · refine Or.inl ⟨hd, c :: used, rem, by simp [htl], by simp; omega, ?_, ?_⟩
        · rw [strip_cons_lineBreak c used hc]; exact hlen
        · rw [strip_cons_lineBreak c used hc]; exact hall
      · exact Or.inr ⟨h2, h4, hj, by simp; omega, body,
          by rw [strip_cons_lineBreak c tl hc]; exact hs, hbl, hall⟩

theorem quantumLoop_ok (L : Nat) : ∀ (rest : Bytes) (si j : Nat) (dbuf : List Nat), j ≤ 4 →
    ScanOK rest si j (quantumLoop L rest si j dbuf) := by
  intro rest
  induction rest with
  | nil =>
    intro si j dbuf hj
    unfold quantumLoop
    split_ifs with h4 h0
    · exact Or.inl ⟨rfl, [], [], rfl, rfl, by simp [stripLineBreaks]; omega, by
        simp [stripLineBreaks]⟩
    · exact ⟨h0, rfl, rfl⟩
    · trivial
  | cons c tl ih =>
    intro si j dbuf hj
    unfold quantumLoop
    simp only
    split_ifs with h4 hd hnl hne hj01 hj2
    · exact Or.inl ⟨rfl, [], c :: tl, rfl, rfl, by simp [stripLineBreaks]; omega, by
        simp [stripLineBreaks]⟩
    · exact ScanOK_cons_alphabet c tl si j _ (isAlphabet_of_decodeMap c hd)
        (ih (si + 1) (j + 1) _ (by omega))
    · exact ScanOK_cons_lineBreak c tl si j _ hnl (ih (si + 1) j _ hj)
    · trivial
    · trivial
    · have hc : c = 61 := by simpa using hne
      have hs61 : stripLineBreaks (c :: tl) = 61 :: stripLineBreaks tl := by
        rw [strip_cons_other c tl hnl, hc]
      obtain ⟨hk, hs⟩ := skipNewlines_spec tl
      split
      · trivial
      · next c2 tl2 hdrop =>
        have hlen : tl.length = skipNewlines tl + (tl2.length + 1) := by
          have := congrArg List.length hdrop
          simp at this; omega
        split_ifs with hc2
        · trivial
        · have hc2' : c2 = 61 := by simpa using hc2
          rcases finishPadding_ok tl2 (si + 1 + skipNewlines tl + 1) j dbuf with
            ⟨s1, e, he⟩ | ⟨he, hnil⟩
          · rw [he]; trivial
          · rw [he]
            refine Or.inr ⟨by omega, by omega, le_refl _, by simp; omega, [], ?_, by simp, by
              simp⟩
            rw [hs61, hs, hdrop, strip_cons_other c2 tl2 (by rw [hc2']; decide), hnil, hc2', hj2]
            rfl
    · have hc : c = 61 := by simpa using hne
      have hj3 : j = 3 := by omega
      rcases finishPadding_ok tl (si + 1) j dbuf with ⟨s1, e, he⟩ | ⟨he, hnil⟩
      · rw [he]; trivial
      · rw [he]
        refine Or.inr ⟨by omega, by omega, le_refl _, by simp; omega, [], ?_, by simp, by simp⟩
        rw [strip_cons_other c tl hnl, hnil, hc, hj3]
        rfl

theorem isAlphabet_pad : isAlphabet 61 = false := by decide

theorem validGroups_append : ∀ (k : Nat) (body tail : Bytes), body.length = 4 * k →
    (∀ c ∈ body, isAlphabet c = true) → validGroups (body ++ tail) = validGroups tail := by
  intro k
  induction k with
  | zero =>
    intro body tail h _
    have : body = [] := List.length_eq_zero.mp (by omega)
    subst this; rfl
  | succ k ih =>
    intro body tail h hall
    match body, h with
    | a :: b :: c :: d :: rest, h =>
      have ha := hall a (by simp)
      have hb := hall b (by simp)
      have hc := hall c (by simp)
      have hd := hall d (by simp)
      have hrest : ∀ x ∈ rest, isAlphabet x = true := fun x hx => hall x (by simp [hx])
      have := ih rest tail (by simp at h; omega) hrest
      simp only [List.cons_append, validGroups, ha, hb, hc, hd, and_self, if_true]
      exact this

theorem validGroups_padded (body : Bytes) (dlen : Nat) (h2 : 2 ≤ dlen) (h4 : dlen < 4)
    (hlen : body.length = dlen) (hall : ∀ c ∈ body, isAlphabet c = true) :
    validGroups (body ++ List.replicate (4 - dlen) 61) = true := by
  have hcases : dlen = 2 ∨ dlen = 3 := by omega
  rcases hcases with rfl | rfl
  · match body, hlen with
    | [x, y], _ =>
      have hx := hall x (by simp)
      have hy := hall y (by simp)
      simp [validGroups, hx, hy, isAlphabet_pad, List.replicate]
  · match body, hlen with
    | [x, y, z], _ =>
      have hx := hall x (by simp)
      have hy := hall y (by simp)
      have hz := hall z (by simp)
      simp [validGroups, hx, hy, hz, isAlphabet_pad, List.replicate]

theorem valid_of_readSoFar (src : Bytes) (si m : Nat) (tail : Bytes) (hm : m % 4 = 0)
    (h : ReadSoFar src si m) (htail : stripLineBreaks (src.drop si) = tail)
    (hv : validGroups tail = true) : ValidBase64 src := by
  obtain ⟨_, hlen, hall⟩ := h
  unfold ValidBase64
  have : stripLineBreaks src = stripLineBreaks (src.take si) ++ tail := by
    rw [← htail, ← strip_append, List.take_append_drop]
  rw [this, validGroups_append (m / 4) _ tail (by omega) hall]
  exact hv

theorem readSoFar_zero (src : Bytes) : ReadSoFar src 0 0 :=
  ⟨Nat.zero_le _, by simp [stripLineBreaks], by simp [stripLineBreaks]⟩

theorem readSoFar_append (src used rem : Bytes) (si m : Nat) (h : ReadSoFar src si m)
    (hdrop : src.drop si = used ++ rem)
    (hall : ∀ c ∈ stripLineBreaks used, isAlphabet c = true) :
    ReadSoFar src (si + used.length) (m + (stripLineBreaks used).length) := by
  obtain ⟨hsi, hlen, halpha⟩ := h
  have hl : src.length - si = used.length + rem.length := by
    have := congrArg List.length hdrop
    simpa using this
  have htake : src.take (si + used.length) = src.take si ++ used := by
    rw [List.take_add, hdrop, List.take_left]
  refine ⟨by omega, ?_, ?_⟩
  · rw [htake, strip_append, List.length_append, hlen]
  · rw [htake, strip_append]
    intro c hc
    rcases List.mem_append.mp hc with hc | hc
    · exact halpha c hc
    · exact hall c hc

theorem readSoFar_succ (src : Bytes) (si m : Nat) (h : ReadSoFar src si m) (hsi : si < src.length)
    (hc : isAlphabet (src.getD si 0) = true) : ReadSoFar src (si + 1) (m + 1) := by
  have hdrop : src.drop si = [src.getD si 0] ++ src.drop (si + 1) := by
    rw [List.drop_eq_getElem_cons hsi]
    simp [List.getD_eq_getElem?_getD, List.getElem?_eq_getElem hsi]
  have hnb : ¬ (src.getD si 0 = 10 ∨ src.getD si 0 = 13) := by
    simpa [isLineBreak] using isLineBreak_of_isAlphabet _ hc
  have hs : stripLineBreaks [src.getD si 0] = [src.getD si 0] := by
    rw [strip_cons_other _ _ hnb]; rfl
  have := readSoFar_append src [src.getD si 0] _ si m h hdrop (by rw [hs]; simpa using hc)
  rw [hs] at this
  simpa using this

theorem decodeQuantum_scan (src : Bytes) (st st1 : DecState) (err : Option GoError)
    (h : decodeQuantum src st = some (st1, err)) :
    quantumLoop src.length (src.drop st.si) st.si 0 [0, 0, 0, 0] = .ret st1.si err ∨
      ∃ dbuf dlen, quantumLoop src.length (src.drop st.si) st.si 0 [0, 0, 0, 0] =
        .brk st1.si dbuf dlen err := by
  unfold decodeQuantum at h
  split_ifs at h
  split at h
  · next si e heq =>
    simp only [Option.some.injEq, Prod.mk.injEq] at h
    left; rw [heq, ← h.1, ← h.2]
  · next si dbuf dlen e heq =>
    cases hw : writeQuantum st.dst st.n dbuf dlen with
    | none => rw [hw] at h; simp at h
    | some d =>
      rw [hw] at h
      simp only [Option.map_some', Option.some.injEq, Prod.mk.injEq] at h
      right; exact ⟨dbuf, dlen, by rw [heq, ← h.1, ← h.2]⟩

theorem decodeQuantum_accepting (src : Bytes) (st st1 : DecState)
    (h : decodeQuantum src st = some (st1, none)) (hacc : Accepting src st) :
    Accepting src st1 := by
  have hok := quantumLoop_ok src.length (src.drop st.si) st.si 0 [0, 0, 0, 0] (by omega)
  have hdl : (src.drop st.si).length = src.length - st.si := by simp
  rcases hacc with ⟨m, hm, hread⟩ | ⟨hend, hvalid⟩
  · have hsi := hread.1
    rcases decodeQuantum_scan src st st1 none h with hs | ⟨dbuf, dlen, hs⟩
    · rw [hs] at hok
      obtain ⟨_, hstrip, hpos⟩ := hok
      exact Or.inr ⟨by omega, valid_of_readSoFar src st.si m [] hm hread hstrip rfl⟩
    · rw [hs] at hok
      rcases hok with ⟨_, used, rem, hdrop, hpos, hlen, hall⟩ |
        ⟨h2, h4, _, hpos, body, hstrip, hbl, hall⟩
      · have := readSoFar_append src used rem st.si m hread hdrop hall
        rw [← hpos] at this
        exact Or.inl ⟨_, by omega, this⟩
      · exact Or.inr ⟨by omega, valid_of_readSoFar src st.si m _ hm hread hstrip
          (validGroups_padded body dlen h2 h4 (by omega) hall)⟩
  · have hnil : src.drop st.si = [] := by rw [hend]; simp
    rw [hnil] at hok
    refine Or.inr ⟨?_, hvalid⟩
    rcases decodeQuantum_scan src st st1 none h with hs | ⟨dbuf, dlen, hs⟩
    · rw [hnil] at hs
      rw [hs] at hok
      have := hok.2.2
      simp at this; omega
    · rw [hnil] at hs
      rw [hs] at hok
      rcases hok with ⟨_, used, rem, hdrop, hpos, hlen, _⟩ | ⟨_, _, _, hpos, _⟩
      · have hu : used = [] := (List.append_eq_nil.mp hdrop.symm).1
        subst hu
        simp [stripLineBreaks] at hlen
      · simp at hpos; omega

set_option maxRecDepth 20000 in
theorem or_255_left : ∀ b < 256, 255 ||| b = 255 := by decide

theorem or_ne_255 {a b : Nat} (ha : a < 256) (hb : b < 256) (h : a ||| b ≠ 255) :
    a ≠ 255 ∧ b ≠ 255 := by
  constructor
  · rintro rfl
    exact h (or_255_left b hb)
  · rintro rfl
    exact h (by rw [Nat.lor_comm]; exact or_255_left a ha)

theorem or_lt_256 {a b : Nat} (ha : a < 256) (hb : b < 256) : a ||| b < 256 :=
  Nat.or_lt_two_pow (n := 8) ha hb

theorem assemble32_some (n1 n2 n3 n4 dn : Nat) (h1 : n1 < 256) (h2 : n2 < 256) (h3 : n3 < 256)
    (h4 : n4 < 256) (h : assemble32 n1 n2 n3 n4 = some dn) :
    n1 ≠ 255 ∧ n2 ≠ 255 ∧ n3 ≠ 255 ∧ n4 ≠ 255 := by
  unfold assemble32 at h
  split_ifs at h with hor
  have a3 := or_ne_255 (or_lt_256 (or_lt_256 h1 h2) h3) h4 hor
  have a2 := or_ne_255 (or_lt_256 h1 h2) h3 a3.1
  have a1 := or_ne_255 h1 h2 a2.1
  exact ⟨a1.1, a1.2, a2.2, a3.2⟩

theorem assemble64_some (n1 n2 n3 n4 n5 n6 n7 n8 dn : Nat) (h1 : n1 < 256) (h2 : n2 < 256)
    (h3 : n3 < 256) (h4 : n4 < 256) (h5 : n5 < 256) (h6 : n6 < 256) (h7 : n7 < 256)
    (h8 : n8 < 256) (h : assemble64 n1 n2 n3 n4 n5 n6 n7 n8 = some dn) :
    n1 ≠ 255 ∧ n2 ≠ 255 ∧ n3 ≠ 255 ∧ n4 ≠ 255 ∧ n5 ≠ 255 ∧ n6 ≠ 255 ∧ n7 ≠ 255 ∧ n8 ≠ 255 := by
  unfold assemble64 at h
  split_ifs at h with hor
  have l2 := or_lt_256 h1 h2
  have l3 := or_lt_256 l2 h3
  have l4 := or_lt_256 l3 h4
  have l5 := or_lt_256 l4 h5
  have l6 := or_lt_256 l5 h6
  have l7 := or_lt_256 l6 h7
  have a7 := or_ne_255 l7 h8 hor
  have a6 := or_ne_255 l6 h7 a7.1
  have a5 := or_ne_255 l5 h6 a6.1
  have a4 := or_ne_255 l4 h5 a5.1
  have a3 := or_ne_255 l3 h4 a4.1
  have a2 := or_ne_255 l2 h3 a3.1
  have a1 := or_ne_255 h1 h2 a2.1
  exact ⟨a1.1, a1.2, a2.2, a3.2, a4.2, a5.2, a6.2, a7.2⟩

theorem accepting_fast (src : Bytes) (st : DecState) (k : Nat) (hk : k % 4 = 0)
    (hroom : k ≤ src.length - st.si) (hk0 : 0 < k)
    (hall : ∀ i < k, decodeMap (src.getD (st.si + i) 0) ≠ 0xff) (hacc : Accepting src st)
    (dst : Bytes) (n : Nat) : Accepting src ⟨dst, n, st.si + k⟩ := by
  rcases hacc with ⟨m, hm, hread⟩ | ⟨hend, _⟩
  · have hstep : ∀ i ≤ k, ReadSoFar src (st.si + i) (m + i) := by
      intro i
      induction i with
      | zero => intro _; exact hread
      | succ i ih =>
        intro hi
        have := readSoFar_succ src (st.si + i) (m + i) (ih (by omega)) (by omega)
          (isAlphabet_of_decodeMap _ (hall i (by omega)))
        simpa [Nat.add_assoc] using this
    exact Or.inl ⟨m + k, by omega, hstep k (le_refl _)⟩
  · omega

theorem slowStep_accepting (src : Bytes) (st st2 : DecState) (k : DecState → Loop)
    (P : DecState → Prop) (hacc : Accepting src st)
    (hk : ∀ st1, Accepting src st1 → k st1 = .next st2 → P st2)
    (h : slowStep src st k = .next st2) : P st2 := by
  unfold slowStep at h
  cases hq : decodeQuantum src st with
  | none => rw [hq] at h; cases h
  | some r =>
    obtain ⟨st1, err⟩ := r
    cases err with
    | some e => rw [hq] at h; cases h
    | none =>
      rw [hq] at h
      exact hk st1 (decodeQuantum_accepting src st st1 hq hacc) h

theorem loop64_accepting (src : Bytes) : ∀ (fuel : Nat) (st st2 : DecState),
    Accepting src st → loop64 src fuel st = .next st2 → Accepting src st2 := by
  intro fuel
  induction fuel with
  | zero => intro st st2 _ h; cases h
  | succ fuel ih =>
    intro st st2 hacc h
    unfold loop64 at h
    split_ifs at h with hg
    · split at h
      · next dn hdn =>
        have hd := assemble64_some _ _ _ _ _ _ _ _ dn (decodeMap_lt _) (decodeMap_lt _)
          (decodeMap_lt _) (decodeMap_lt _) (decodeMap_lt _) (decodeMap_lt _) (decodeMap_lt _)
          (decodeMap_lt _) hdn
        refine ih _ st2 (accepting_fast src st 8 rfl hg.2.1 (by omega) ?_ hacc _ _) h
        intro i hi
        have : i = 0 ∨ i = 1 ∨ i = 2 ∨ i = 3 ∨ i = 4 ∨ i = 5 ∨ i = 6 ∨ i = 7 := by omega
        rcases this with rfl | rfl | rfl | rfl | rfl | rfl | rfl | rfl
        · exact hd.1
        · exact hd.2.1
        · exact hd.2.2.1
        · exact hd.2.2.2.1
        · exact hd.2.2.2.2.1
        · exact hd.2.2.2.2.2.1
        · exact hd.2.2.2.2.2.2.1
        · exact hd.2.2.2.2.2.2.2
      · exact slowStep_accepting src st st2 _ _ hacc (fun st1 h1 hn => ih st1 st2 h1 hn) h
    · cases h; exact hacc

theorem loop32_accepting (src : Bytes) : ∀ (fuel : Nat) (st st2 : DecState),
    Accepting src st → loop32 src fuel st = .next st2 → Accepting src st2 := by
  intro fuel
  induction fuel with
  | zero => intro st st2 _ h; cases h
  | succ fuel ih =>
    intro st st2 hacc h
    unfold loop32 at h
    split_ifs at h with hg
    · split at h
      · next dn hdn =>
        have hd := assemble32_some _ _ _ _ dn (decodeMap_lt _) (decodeMap_lt _)
          (decodeMap_lt _) (decodeMap_lt _) hdn
        refine ih _ st2 (accepting_fast src st 4 rfl hg.1 (by omega) ?_ hacc _ _) h
        intro i hi
        have : i = 0 ∨ i = 1 ∨ i = 2 ∨ i = 3 := by omega
        rcases this with rfl | rfl | rfl | rfl
        · exact hd.1
        · exact hd.2.1
        · exact hd.2.2.1
        · exact hd.2.2.2
      · exact slowStep_accepting src st st2 _ _ hacc (fun st1 h1 hn => ih st1 st2 h1 hn) h
    · cases h; exact hacc

theorem loopTail_accepting (src : Bytes) : ∀ (fuel : Nat) (st st2 : DecState),
    Accepting src st → loopTail src fuel st = .next st2 →
      Accepting src st2 ∧ src.length ≤ st2.si := by
  intro fuel
  induction fuel with
  | zero => intro st st2 _ h; cases h
  | succ fuel ih =>
    intro st st2 hacc h
    unfold loopTail at h
    split_ifs at h with hg
    · exact slowStep_accepting src st st2 _
        (fun s => Accepting src s ∧ src.length ≤ s.si) hacc
        (fun st1 h1 hn => ih st1 st2 h1 hn) h
    · cases h; exact ⟨hacc, by omega⟩

theorem Decode_valid (dst src : Bytes) (st : DecState) (h : Decode dst src = .next st) :
    ValidBase64 src := by
  unfold Decode at h
  split_ifs at h with h0
  · have : src = [] := List.length_eq_zero.mp h0
    subst this; decide
  · have hinit : Accepting src ⟨dst, 0, 0⟩ := Or.inl ⟨0, rfl, readSoFar_zero src⟩
    cases h1 : loop64 src (src.length + 1) ⟨dst, 0, 0⟩ with
    | diverge => rw [h1] at h; cases h
    | panic => rw [h1] at h; cases h
    | fail s e => rw [h1] at h; cases h
    | next st1 =>
      rw [h1] at h
      simp only at h
      have a1 := loop64_accepting src _ _ st1 hinit h1
      cases h2 : loop32 src (src.length + 1) st1 with
      | diverge => rw [h2] at h; cases h
      | panic => rw [h2] at h; cases h
      | fail s e => rw [h2] at h; cases h
      | next st2 =>
        rw [h2] at h
        simp only at h
        have a2 := loop32_accepting src _ _ st2 a1 h2
        obtain ⟨a3, hend⟩ := loopTail_accepting src _ _ st a2 h
        rcases a3 with ⟨m, hm, hread⟩ | ⟨_, hv⟩
        · have hsi : st.si = src.length := Nat.le_antisymm hread.1 hend
          exact valid_of_readSoFar src st.si m [] hm hread (by rw [hsi]; simp [stripLineBreaks])
            rfl
        · exact hv

theorem key2hex_ok_valid (data k : Bytes) (h : key2hex data = .ok k) : ValidBase64 data := by
  obtain ⟨st, _, hd, _⟩ := key2hex_ok data k h
  exact Decode_valid _ data st hd

/-! ## The decoder on encoded byte sequences of any length -/

theorem assemble32_digits (n1 n2 n3 n4 : Nat) (h1 : n1 < 64) (h2 : n2 < 64) (h3 : n3 < 64)
    (h4 : n4 < 64) :
    assemble32 n1 n2 n3 n4 = some ((((n1 * 64 + n2) * 64 + n3) * 64 + n4) * 256) := by
  unfold assemble32
  have hne : n1 ||| n2 ||| n3 ||| n4 ≠ 0xff := by
    have := or_lt_64 (or_lt_64 (or_lt_64 h1 h2) h3) h4
    omega
  rw [if_neg hne]
  rw [or_shift n1 n2 20 26 rfl h2, or_shift _ n3 14 20 rfl h3, or_shift _ n4 8 14 rfl h4,
    Nat.shiftLeft_eq]
  congr 1
  omega

theorem putUint32_three (dst : Bytes) (n a b c : Nat) (ha : a < 256) (hb : b < 256)
    (hc : c < 256) :
    putUint32 dst n
      ((((a / 4 * 64 + (a % 4 * 16 + b / 16)) * 64 + (b % 16 * 4 + c / 64)) * 64 + c % 64) * 256)
      = putBytes dst n [a, b, c, 0] := by
  unfold putUint32
  simp only [Nat.shiftRight_eq_div_pow]
  congr 1
  simp only [List.cons.injEq, and_true]
  refine ⟨?_, ?_, ?_, ?_⟩ <;> omega

theorem loop32_step (src : Bytes) (fuel : Nat) (dst : Bytes) (n si a b c : Nat) (r : Bytes)
    (ha : a < 256) (hb : b < 256) (hc : c < 256)
    (hsrc : src.drop si = stdEncode [a, b, c] ++ r) (hroom : 4 ≤ dst.length - n) :
    loop32 src (fuel + 1) ⟨dst, n, si⟩ =
      loop32 src fuel ⟨putBytes dst n [a, b, c, 0], n + 3, si + 4⟩ := by
  have hlen := length_of_drop _ _ _ hsrc
  have h0 := getD_of_drop _ _ _ 0 hsrc
  have h1 := getD_of_drop _ _ _ 1 hsrc
  have h2 := getD_of_drop _ _ _ 2 hsrc
  have h3 := getD_of_drop _ _ _ 3 hsrc
  simp only [stdEncode, List.cons_append, List.nil_append, List.getD_cons_zero,
    List.getD_cons_succ, List.length_cons, Nat.add_zero] at hlen h0 h1 h2 h3
  have hcond : 4 ≤ src.length - si ∧ 4 ≤ dst.length - n := ⟨by omega, hroom⟩
  rw [loop32]
  simp only [hcond, and_self, if_true, h0, h1, h2, h3]
  rw [decodeMap_encodeChar _ (by omega), decodeMap_encodeChar _ (by omega),
    decodeMap_encodeChar _ (by omega), decodeMap_encodeChar _ (by omega)]
  rw [assemble32_digits _ _ _ _ (by omega) (by omega) (by omega) (by omega)]
  simp only
  rw [putUint32_three _ _ _ _ _ ha hb hc]

theorem quantumBytes_one (a : Nat) (ha : a < 256) :
    ∃ y z, quantumBytes [a / 4, a % 4 * 16, 0, 0] = (a, y, z) := by
  rw [quantumBytes_digits _ _ _ _ (by omega) (by omega) (by omega)]
  refine ⟨(((a / 4 * 64 + a % 4 * 16) * 64 + 0) * 64 + 0) / 256 % 256,
    (((a / 4 * 64 + a % 4 * 16) * 64 + 0) * 64 + 0) % 256, ?_⟩
  simp only [Prod.mk.injEq, and_true]
  omega

theorem decodeQuantum_one (src out : Bytes) (si x : Nat) (hx : x < 256)
    (hsrc : src.drop si = stdEncode [x]) :
    decodeQuantum src ⟨out ++ [0, 0], out.length, si⟩ =
      some (⟨out ++ [x, 0], out.length + 1, si + 4⟩, none) := by
  obtain ⟨y, z, hz⟩ := quantumBytes_one x hx
  unfold decodeQuantum
  simp only [List.length_append, List.length_cons, List.length_nil, hsrc, stdEncode]
  rw [if_neg (by omega), quantumLoop_digit _ _ _ _ _ _ (by omega) (by omega),
    quantumLoop_digit _ _ _ _ _ _ (by omega) (by omega)]
  simp [quantumLoop, decodeMap_pad, finishPadding, skipNewlines, writeQuantum, hz,
    store_append_zero]

theorem stdEncode_length_pos (rest : Bytes) (h : rest.length % 3 ≠ 0) :
    (stdEncode rest).length = (rest.length + 2) / 3 * 4 ∧ 4 ≤ (stdEncode rest).length := by
  rw [stdEncode_length]
  exact ⟨rfl, by omega⟩

theorem loop64_run (src : Bytes) : ∀ (k : Nat) (rest out : Bytes) (st : DecState) (fuel : Nat),
    rest.length ≤ k → k < fuel → IsBytes rest → rest.length % 3 ≠ 0 → MidAt src out rest st →
      ∃ out1 rest1 st1, loop64 src fuel st = .next st1 ∧ MidAt src out1 rest1 st1 ∧
        out ++ rest = out1 ++ rest1 ∧ rest1.length % 3 ≠ 0 ∧ IsBytes rest1 ∧
        rest1.length ≤ rest.length ∧ out1.length % 3 = out.length % 3 := by
  intro k
  induction k with
  | zero => intro rest out st fuel h _ _ hmod; omega
  | succ k ih =>
    intro rest out st fuel hk hfuel hbytes hmod hmid
    obtain ⟨dst, n, si⟩ := st
    obtain ⟨hdst, hn, hsrc⟩ := hmid
    simp only at hdst hn hsrc
    subst hdst hn
    obtain ⟨fuel, rfl⟩ : ∃ f, fuel = f + 1 := ⟨fuel - 1, by omega⟩
    by_cases hr : 7 ≤ rest.length
    · match rest, hr with
      | a :: b :: c :: d :: e :: f :: rest1, hr =>
        have hb : ∀ x ∈ [a, b, c, d, e, f], x < 256 := fun x hx =>
          hbytes x (by simp at hx ⊢; tauto)
        have hrest : IsBytes rest1 := fun x hx => hbytes x (by simp [hx])
        have hlen : (a :: b :: c :: d :: e :: f :: rest1).length = rest1.length + 6 := by simp
        rw [hlen] at hmod hk hr
        have hsrc1 : src.drop si = stdEncode [a, b, c, d, e, f] ++ stdEncode rest1 := by
          rw [hsrc]; simp [stdEncode]
        have hstep := loop64_step src fuel
          (out ++ List.replicate ((rest1.length + 6 + 2) / 3 * 3 - 1) 0) out.length si a b c d e f
          (stdEncode rest1) (hb a (by simp)) (hb b (by simp)) (hb c (by simp)) (hb d (by simp))
          (hb e (by simp)) (hb f (by simp)) hsrc1 (by simp; omega)
        have hsrc2 : src.drop (si + 8) = stdEncode rest1 := by
          have := drop_add_of_drop src (stdEncode [a, b, c, d, e, f]) _ si hsrc1
          simpa [stdEncode] using this
        have hput : putBytes (out ++ List.replicate ((rest1.length + 6 + 2) / 3 * 3 - 1) 0)
            out.length [a, b, c, d, e, f, 0, 0] =
            (out ++ [a, b, c, d, e, f]) ++ List.replicate ((rest1.length + 2) / 3 * 3 - 1) 0 := by
          rw [putBytes_zeros]
          have : (rest1.length + 6 + 2) / 3 * 3 - 1 - [a, b, c, d, e, f, 0, 0].length + 2 =
              (rest1.length + 2) / 3 * 3 - 1 := by simp; omega
          rw [← this]
          simp [List.replicate_succ]
        obtain ⟨out2, rest2, st2, h1, h2, h3, h4, h5, h6, h7⟩ := ih rest1 (out ++ [a, b, c, d, e, f])
          ⟨(out ++ [a, b, c, d, e, f]) ++ List.replicate ((rest1.length + 2) / 3 * 3 - 1) 0,
            out.length + 6, si + 8⟩ fuel (by omega) (by omega) hrest (by omega)
          ⟨rfl, by simp, hsrc2⟩
        refine ⟨out2, rest2, st2, ?_, h2, ?_, h4, h5, by omega, by
          rw [h7]; simp; omega⟩
        · simp only [hlen]
          rw [hstep, hput]; exact h1
        · rw [← h3]; simp
    · refine ⟨out, rest, ⟨out ++ List.replicate ((rest.length + 2) / 3 * 3 - 1) 0, out.length, si⟩,
        ?_, ⟨rfl, rfl, hsrc⟩, rfl, hmod, hbytes, le_refl _, rfl⟩
      rw [loop64]
      have : ¬ (64 ≤ IntSize ∧ 8 ≤ src.length - si ∧
          8 ≤ (out ++ List.replicate ((rest.length + 2) / 3 * 3 - 1) 0).length - out.length) := by
        simp; intro _ _; omega
      rw [if_neg this]

theorem loop32_run (src : Bytes) : ∀ (k : Nat) (rest out : Bytes) (st : DecState) (fuel : Nat),
    rest.length ≤ k → k < fuel → IsBytes rest → rest.length % 3 ≠ 0 → MidAt src out rest st →
      ∃ out1 rest1 st1, loop32 src fuel st = .next st1 ∧ MidAt src out1 rest1 st1 ∧
        out ++ rest = out1 ++ rest1 ∧ rest1.length % 3 ≠ 0 ∧ IsBytes rest1 ∧
        rest1.length < 3 ∧ out1.length % 3 = out.length % 3 := by
  intro k
  induction k with
  | zero => intro rest out st fuel h _ _ hmod; omega
  | succ k ih =>
    intro rest out st fuel hk hfuel hbytes hmod hmid
    obtain ⟨dst, n, si⟩ := st
    obtain ⟨hdst, hn, hsrc⟩ := hmid
    simp only at hdst hn hsrc
    subst hdst hn
    obtain ⟨fuel, rfl⟩ : ∃ f, fuel = f + 1 := ⟨fuel - 1, by omega⟩
    by_cases hr : 4 ≤ rest.length
    · match rest, hr with
      | a :: b :: c :: rest1, hr =>
        have hb : ∀ x ∈ [a, b, c], x < 256 := fun x hx => hbytes x (by simp at hx ⊢; tauto)
        have hrest : IsBytes rest1 := fun x hx => hbytes x (by simp [hx])
        have hlen : (a :: b :: c :: rest1).length = rest1.length + 3 := by simp
        rw [hlen] at hmod hk hr
        have hsrc1 : src.drop si = stdEncode [a, b, c] ++ stdEncode rest1 := by
          rw [hsrc]; simp [stdEncode]
        have hstep := loop32_step src fuel
          (out ++ List.replicate ((rest1.length + 3 + 2) / 3 * 3 - 1) 0) out.length si a b c
          (stdEncode rest1) (hb a (by simp)) (hb b (by simp)) (hb c (by simp)) hsrc1
          (by simp; omega)
        have hsrc2 : src.drop (si + 4) = stdEncode rest1 := by
          have := drop_add_of_drop src (stdEncode [a, b, c]) _ si hsrc1
          simpa [stdEncode] using this
        have hput : putBytes (out ++ List.replicate ((rest1.length + 3 + 2) / 3 * 3 - 1) 0)
            out.length [a, b, c, 0] =
            (out ++ [a, b, c]) ++ List.replicate ((rest1.length + 2) / 3 * 3 - 1) 0 := by
          rw [putBytes_zeros]
          have : (rest1.length + 3 + 2) / 3 * 3 - 1 - [a, b, c, 0].length + 1 =
              (rest1.length + 2) / 3 * 3 - 1 := by simp; omega
          rw [← this]
          simp [List.replicate_succ]
        obtain ⟨out2, rest2, st2, h1, h2, h3, h4, h5, h6, h7⟩ := ih rest1 (out ++ [a, b, c])
          ⟨(out ++ [a, b, c]) ++ List.replicate ((rest1.length + 2) / 3 * 3 - 1) 0,
            out.length + 3, si + 4⟩ fuel (by omega) (by omega) hrest (by omega)
          ⟨rfl, by simp, hsrc2⟩
        refine ⟨out2, rest2, st2, ?_, h2, ?_, h4, h5, h6, by
          rw [h7]; simp⟩
        · simp only [hlen]
          rw [hstep, hput]; exact h1
        · rw [← h3]; simp
    · refine ⟨out, rest, ⟨out ++ List.replicate ((rest.length + 2) / 3 * 3 - 1) 0, out.length, si⟩,
        ?_, ⟨rfl, rfl, hsrc⟩, rfl, hmod, hbytes, by omega, rfl⟩
      rw [loop32]
      have : ¬ (4 ≤ src.length - si ∧
          4 ≤ (out ++ List.replicate ((rest.length + 2) / 3 * 3 - 1) 0).length - out.length) := by
        simp; intro _; omega
      rw [if_neg this]

theorem loopTail_run (src : Bytes) (rest out : Bytes) (st : DecState) (fuel : Nat)
    (hfuel : 2 ≤ fuel) (hbytes : IsBytes rest) (hmod : rest.length % 3 ≠ 0)
    (hlt : rest.length < 3) (hmid : MidAt src out rest st) :
    loopTail src fuel st =
      .next ⟨out ++ rest ++ List.replicate (2 - rest.length) 0, out.length + rest.length,
        src.length⟩ := by
  obtain ⟨dst, n, si⟩ := st
  obtain ⟨hdst, hn, hsrc⟩ := hmid
  simp only at hdst hn hsrc
  subst hdst hn
  obtain ⟨fuel, rfl⟩ : ∃ f, fuel = f + 2 := ⟨fuel - 2, by omega⟩
  have hl := length_of_drop _ _ _ hsrc
  have hsl := (stdEncode_length_pos rest hmod).1
  have hlen4 : (stdEncode rest).length = 4 := by rw [hsl]; omega
  have hsi : si < src.length := by omega
  have hend : ¬ si + 4 < src.length := by omega
  have hend2 : si + 4 = src.length := by omega
  have hroom : (rest.length + 2) / 3 * 3 - 1 = 2 := by omega
  rw [hroom]
  have hrep : List.replicate 2 0 = [0, 0] := rfl
  rw [hrep]
  match rest, hlt, hmod with
  | [x], _, _ =>
    have hx : x < 256 := hbytes x (by simp)
    have hq := decodeQuantum_one src out si x hx hsrc
    rw [loopTail]
    simp only [hsi, if_true, slowStep, hq]
    rw [loopTail]
    simp [hend, hend2]
  | [x, y], _, _ =>
    have hx : x < 256 := hbytes x (by simp)
    have hy : y < 256 := hbytes y (by simp)
    have hq := decodeQuantum_two src out si x y hx hy hsrc
    rw [loopTail]
    simp only [hsi, if_true, slowStep, hq]
    rw [loopTail]
    simp [hend, hend2]

theorem Decode_padded (bs : Bytes) (hbs : IsBytes bs) (hmod : bs.length % 3 ≠ 0) :
    Decode (List.replicate ((bs.length + 2) / 3 * 3 - 1) 0) (stdEncode bs) =
      .next ⟨bs ++ List.replicate (2 - bs.length % 3) 0, bs.length, (stdEncode bs).length⟩ := by
  have hsl := stdEncode_length_pos bs hmod
  have hne : (stdEncode bs).length ≠ 0 := by omega
  have hge : bs.length ≤ (stdEncode bs).length := by rw [hsl.1]; omega
  obtain ⟨out1, rest1, st1, h1, m1, e1, mod1, b1, _, o1⟩ := loop64_run (stdEncode bs) bs.length bs []
    ⟨List.replicate ((bs.length + 2) / 3 * 3 - 1) 0, 0, 0⟩ ((stdEncode bs).length + 1)
    (le_refl _) (by omega) hbs hmod ⟨rfl, rfl, rfl⟩
  have hr1 : rest1.length ≤ bs.length := by
    have := congrArg List.length e1
    simp at this; omega
  obtain ⟨out2, rest2, st2, h2, m2, e2, mod2, b2, lt2, o2⟩ := loop32_run (stdEncode bs) bs.length
    rest1 out1 st1 ((stdEncode bs).length + 1) hr1 (by omega) b1 mod1 m1
  have h3 := loopTail_run (stdEncode bs) rest2 out2 st2 ((stdEncode bs).length + 1) (by omega)
    b2 mod2 lt2 m2
  have hbs2 : bs = out2 ++ rest2 := by rw [← e2, ← e1]; rfl
  have hlen2 : bs.length = out2.length + rest2.length := by rw [hbs2]; simp
  have hout2 : out2.length % 3 = 0 := by rw [o2, o1]; rfl
  unfold Decode
  rw [if_neg hne, h1]
  simp only
  rw [h2]
  simp only
  rw [h3, ← hbs2, ← hlen2]
  have : 2 - rest2.length = 2 - bs.length % 3 := by omega
  rw [this]

/-- The padded encoding of a byte sequence whose length is not a multiple of
three is accepted by `key2hex`, whatever the length. -/
theorem key2hex_of_padded (bs : Bytes) (hbs : IsBytes bs) (hmod : bs.length % 3 ≠ 0) :
    key2hex (stdEncode bs) = .ok (EncodeToString (bs ++ List.replicate (2 - bs.length % 3) 0)) := by
  have hsl := (stdEncode_length_pos bs hmod).1
  have hl : ((DecodedLen (stdEncode bs).length : Nat) : Int) - 1 =
      (((bs.length + 2) / 3 * 3 - 1 : Nat) : Int) := by
    rw [hsl]; unfold DecodedLen; omega
  unfold key2hex
  simp only [hl]
  rw [if_neg (by omega), Int.toNat_ofNat, Decode_padded bs hbs hmod]

/-! ## Keys that are not valid base64 -/

theorem UAPI_total (lookup : Resolver) (wc : WireGuardConfig) :
    (UAPI lookup wc).2 ≠ .diverge := by
  have t1 := key2hex_total wc.Interface.PrivateKey
  have t2 := key2hex_total wc.Peer.PublicKey
  unfold UAPI
  cases hk1 : key2hex wc.Interface.PrivateKey with
  | diverge => exact absurd hk1 t1
  | error e => simp
  | panic => simp
  | ok k1 =>
    cases hk2 : key2hex wc.Peer.PublicKey with
    | diverge => exact absurd hk2 t2
    | error e => simp
    | panic => simp
    | ok k2 =>
      simp only
      cases hs : SplitHostPort wc.Peer.Endpoint with
      | error e => simp
      | ok hp =>
        obtain ⟨host, port⟩ := hp
        cases hl : lookup host with
        | error e => simp [hl]
        | ok addrs => simp [hl]

set_option maxRecDepth 100000 in
theorem main_scheme_counterexample :
    (sampleWorld (B "https")).envParse.map config.ProxyToScheme = some (B "https") ∧
      (main (sampleWorld (B "https"))).2 = .fatal "unsupported scheme: %s" ∧
      (main (sampleWorld (B "https"))).1 =
        [.envParse, .readConfig (B "wg0.conf"), .parsePrefix (B "10.0.0.2/32"),
            .createNetTUN (B "10.0.0.2") (B "10.0.0.1") 1280, .writeUAPI, .newDevice,
            .ipcSetOperation
             (B "private_key=6162636465666768696a6b6c6d6e6f707172737475767778797a313233343536\n" ++
              B "listen_port=0\nreplace_peers=true\n" ++
              B "public_key=303132333435363738396162636465666768696a6b6c6d6e6f70717273747576\n" ++
              B "endpoint=192.0.2.1:51820\nallowed_ip=10.0.0.0/8\n" ++
              B "allowed_ip=192.168.1.0/24\npersistent_keepalive_interval=25\n"),
            .deviceUp] ∧
      ((main (sampleWorld (B "https"))).1.filter Step.isLifecycle).length = 4 := by
  decide

/-- C4 (amended): whenever `PROXY_TO` has a scheme other than `http`, startup
never opens the HTTP listener and never gets to serve. The scheme is checked
last: when startup ends with the unsupported-scheme error, the virtual network
stack and the device have been created, the control document applied and the
device brought up, in this order. -/
theorem main_unsupported_scheme (w : World) (cfg : config) (henv : w.envParse = some cfg)
    (hscheme : cfg.ProxyToScheme ≠ B "http") :
    (∀ listen, Step.listenAndServe listen ∉ (main w).1) ∧ (main w).2 ≠ .serving ∧
      (main w).2 ≠ .diverge ∧
      ((main w).2 = .fatal "unsupported scheme: %s" →
        ∃ (wgc : WireGuardConfig) (addr dns conf : Bytes), (main w).1 =
          [.envParse, .readConfig cfg.WireguardConfigFname, .parsePrefix wgc.Interface.Address,
            .createNetTUN addr dns 1280, .writeUAPI, .newDevice, .ipcSetOperation conf,
            .deviceUp]) := by
  unfold main
  simp only [henv]
  by_cases hf : w.flagParse = false
  · simp [hf]
  simp only [hf, if_false]
  cases hr : w.ReadFileInto cfg.WireguardConfigFname with
  | none => simp
  | some wgc =>
    simp only []
    cases hp : w.ParsePrefix wgc.Interface.Address with
    | none => simp
    | some addr =>
      simp only []
      cases hd : w.ParseAddr wgc.Interface.DNS with
      | none => simp
      | some dns =>
        simp only []
        by_cases ht : w.CreateNetTUN addr dns 1280 = false
        · simp [ht]
        simp only [ht, if_false]
        have htot := UAPI_total w.LookupHost wgc
        rcases hu : UAPI w.LookupHost wgc with ⟨conf, r⟩
        rw [hu] at htot
        cases r with
        | error e => simp
        | panic => simp
        | diverge => exact absurd rfl htot
        | ok u =>
          simp only []
          by_cases hi : w.IpcSetOperation conf = false
          · simp [hi]
          by_cases hup : w.Up = false
          · simp [hi, hup]
          simp only [hi, hup, if_false, hscheme]
          exact ⟨by simp, by simp, by simp, fun _ => ⟨wgc, addr, dns, conf, by simp⟩⟩

theorem main_unsupported_scheme_witness :
    (main (sampleWorld (B "tcp"))).2 ≠ .serving :=
  (main_unsupported_scheme (sampleWorld (B "tcp")) _ rfl (by decide)).2.1

end Glaceon
